import Mathlib

/-!
Verification development for the Rib expression-language core of the golem
repository.

Two worlds are embedded:

* `Golem.Bridge` — the worker-bridge evaluator
  (src/golem-worker-bridge/src/evaluator.rs).  Its `Expr` variants are the
  ones the evaluator's exhaustive match handles; the JSON value model mirrors
  serde_json.  Helper functions of the repository that live in files not among
  the sources (typed_json.rs, resolved_variables.rs, the tokeniser) are
  modelled from the specification and carry a doc comment saying so.

* `Golem.Rib` — the golem-rib crate: the literal parser
  (src/golem-rib/src/parser/literal.rs) over a small parsec-style combinator
  semantics mirroring the combine crate, and the input-type extractor
  (src/golem-rib/src/type_inference/rib_input_type.rs) over an AST modelled
  from the specification's data model.
-/

namespace Golem

namespace Bridge

/-- JSON values, mirroring serde_json::Value.  Numbers are modelled as
integers; the claims under study only exercise integral numbers. -/
inductive Value where
  | null : Value
  | bool (b : Bool) : Value
  | number (n : Int) : Value
  | str (s : String) : Value
  | arr (items : List Value) : Value
  | obj (fields : List (String × Value)) : Value

/-- The evaluator's single error variant (EvaluationError::Message). -/
inductive EvaluationError where
  | message (s : String) : EvaluationError
  deriving DecidableEq

mutual

/-- Display of a JSON value, mirroring serde_json's compact Display
(string escape sequences are elided; no claim exercises them). -/
def jsonDisplay : Value → String
  | .null => "null"
  | .bool true => "true"
  | .bool false => "false"
  | .number n => toString n
  | .str s => "\"" ++ s ++ "\""
  | .arr xs => "[" ++ jsonDisplayItems xs ++ "]"
  | .obj fs => "\x7b" ++ jsonDisplayFields fs ++ "\x7d"

/-- Comma-separated display of array items. -/
def jsonDisplayItems : List Value → String
  | [] => ""
  | [v] => jsonDisplay v
  | v :: rest => jsonDisplay v ++ "," ++ jsonDisplayItems rest

/-- Comma-separated display of object fields. -/
def jsonDisplayFields : List (String × Value) → String
  | [] => ""
  | [(k, v)] => "\"" ++ k ++ "\":" ++ jsonDisplay v
  | (k, v) :: rest => "\"" ++ k ++ "\":" ++ jsonDisplay v ++ "," ++ jsonDisplayFields rest

end

/-- serde_json Value::as_bool. -/
def Value.as_bool : Value → Option Bool
  | .bool b => some b
  | _ => none

/-- serde_json Value::as_array. -/
def Value.as_array : Value → Option (List Value)
  | .arr xs => some xs
  | _ => none

/-- serde_json Value::as_object. -/
def Value.as_object : Value → Option (List (String × Value))
  | .obj fs => some fs
  | _ => none

/-- Value of a nonempty run of decimal digits. -/
def digitsToNat (ds : List Char) : Nat :=
  ds.foldl (fun acc c => acc * 10 + (c.toNat - 48)) 0

/-- Decimal integer parsing (an optional sign followed by a nonempty digit
run), mirroring Rust's str::parse for integers. -/
def parseIntChars : List Char → Option Int
  | [] => none
  | c :: rest =>
    if c = '-' then
      if rest.isEmpty then none
      else if rest.all Char.isDigit then some (-(digitsToNat rest : Int)) else none
    else if c = '+' then
      if rest.isEmpty then none
      else if rest.all Char.isDigit then some (digitsToNat rest : Int) else none
    else if (c :: rest).all Char.isDigit then some (digitsToNat (c :: rest) : Int)
    else none

namespace ValueTyped

/-- Modelled from the spec: ValueTyped::from_string (typed_json.rs is not
among the sources).  A string is parsed into the most specific primitive:
a decimal integer becomes a JSON number, "true"/"false" a boolean, anything
else stays a string (§3: numeric literals are carried as decimals and
coerced at evaluation). -/
def from_string (s : String) : Value :=
  match parseIntChars s.data with
  | some n => .number n
  | none =>
    if s = "true" then .bool true
    else if s = "false" then .bool false
    else .str s

/-- Modelled from the spec: ValueTyped::get_primitive_variant (typed_json.rs
is not among the sources); same typed re-parsing as `from_string`, used for
literals. -/
def get_primitive_variant (s : String) : Value :=
  from_string s

/-- Modelled from the spec: ValueTyped::get_primitive_string (typed_json.rs
is not among the sources).  §4.4 Concat: each part must be a primitive
(string, number, bool); those have string forms, complex values have none. -/
def get_primitive_string : Value → Option String
  | .str s => some s
  | .number n => some (toString n)
  | .bool true => some "true"
  | .bool false => some "false"
  | _ => none

/-- Modelled from the spec: ValueTyped::ComplexJson (typed_json.rs is not
among the sources).  The designated wrapper for an opaque JSON subtree; in
the evaluator's plain-JSON value model it carries the subtree unchanged. -/
def ComplexJson (v : Value) : Value := v

/-- Modelled from the spec: ValueTyped::convert_to_json (typed_json.rs is not
among the sources); the evaluator's values already are JSON. -/
def convert_to_json (v : Value) : Value := v

/-- Modelled from the spec: ValueTyped::from_json followed by equal_to
(typed_json.rs is not among the sources).  §4.4: numbers compare
numerically, strings lexicographically, booleans by equality only; mixed or
complex comparands are an error. -/
def equal_to (l r : Value) : Except String Bool :=
  match l, r with
  | .number a, .number b => .ok (a == b)
  | .str a, .str b => .ok (a == b)
  | .bool a, .bool b => .ok (a == b)
  | _, _ => .error "Unsupported json type to be compared"

/-- Modelled from the spec: ValueTyped::from_json followed by greater_than
(typed_json.rs is not among the sources); comparison rules as in §4.4. -/
def greater_than (l r : Value) : Except String Bool :=
  match l, r with
  | .number a, .number b => .ok (decide (b < a))
  | .str a, .str b => .ok (decide (b < a))
  | _, _ => .error "Unsupported json type to be compared"

/-- Modelled from the spec: ValueTyped::from_json followed by
greater_than_or_equal_to (typed_json.rs is not among the sources). -/
def greater_than_or_equal_to (l r : Value) : Except String Bool :=
  match l, r with
  | .number a, .number b => .ok (decide (b ≤ a))
  | .str a, .str b => .ok (decide (b ≤ a))
  | _, _ => .error "Unsupported json type to be compared"

/-- Modelled from the spec: ValueTyped::from_json followed by less_than
(typed_json.rs is not among the sources). -/
def less_than (l r : Value) : Except String Bool :=
  match l, r with
  | .number a, .number b => .ok (decide (a < b))
  | .str a, .str b => .ok (decide (a < b))
  | _, _ => .error "Unsupported json type to be compared"

/-- Modelled from the spec: ValueTyped::from_json followed by
less_than_or_equal_to (typed_json.rs is not among the sources). -/
def less_than_or_equal_to (l r : Value) : Except String Bool :=
  match l, r with
  | .number a, .number b => .ok (decide (a ≤ b))
  | .str a, .str b => .ok (decide (a ≤ b))
  | _, _ => .error "Unsupported json type to be compared"

end ValueTyped

/-- The worker-bridge expression AST.  expr.rs is not among the sources; the
variants and their payloads are exactly the ones the evaluator's exhaustive
match in evaluator.rs handles. -/
inductive Expr where
  | request : Expr
  | workerResponse : Expr
  | selectIndex (e : Expr) (index : Nat) : Expr
  | selectField (e : Expr) (field : String) : Expr
  | equalTo (l r : Expr) : Expr
  | greaterThan (l r : Expr) : Expr
  | greaterThanOrEqualTo (l r : Expr) : Expr
  | lessThan (l r : Expr) : Expr
  | lessThanOrEqualTo (l r : Expr) : Expr
  | not (e : Expr) : Expr
  | cond (p a b : Expr) : Expr
  | sequence (es : List Expr) : Expr
  | record (fields : List (String × Expr)) : Expr
  | concat (es : List Expr) : Expr
  | literal (s : String) : Expr
  | pathVar (name : String) : Expr

/-- Modelled from the spec: the context (resolved_variables.rs is not among
the sources).  §3/§6 context contract: `get_key` is a root-level fetch and
`get_path` a structured fetch; paths are keyed here by their textual form,
and the evaluator only consults the reserved paths "request" and
"worker.response" (§6 reserved globals). -/
structure ResolvedVariables where
  get_key : String → Option Value
  get_path : String → Option Value

/-- serde_json::Map::insert: replaces the value of an existing key in place,
appends a fresh key at the end. -/
def mapInsert : List (String × Value) → String → Value → List (String × Value)
  | [], k, v => [(k, v)]
  | (k0, v0) :: rest, k, v =>
    if k0 = k then (k, v) :: rest else (k0, v0) :: mapInsert rest k v

mutual

/-- The worker-bridge evaluator: the inner `go` of
`impl Evaluator<Value> for Expr` in evaluator.rs, one match arm per Expr
variant, in source order. -/
def evaluate (e : Expr) (rv : ResolvedVariables) : Except EvaluationError Value :=
  match e with
  | .request =>
    match rv.get_path "request" with
    | some v => .ok v
    | none => .error (.message "Details of request is missing")
  | .workerResponse =>
    match rv.get_path "worker.response" with
    | some v => .ok v
    | none => .error (.message "Details of worker response is missing")
  | .selectIndex e index =>
    match evaluate e rv with
    | .error err => .error err
    | .ok v =>
      match v.as_array with
      | none => .error (.message ("Result is not an array to get the index " ++ toString index))
      | some xs =>
        match xs.get? index with
        | none => .error (.message ("The array doesn't contain " ++ toString index ++ " elements"))
        | some x => .ok x
  | .selectField e field =>
    match evaluate e rv with
    | .error err => .error err
    | .ok v =>
      match v.as_object with
      | none => .error (.message ("Result is not an object to get the field " ++ field))
      | some fs =>
        match fs.lookup field with
        | none => .error (.message ("The result doesn't contain the field " ++ field))
        | some x => .ok x
  | .equalTo l r =>
    match evaluate l rv with
    | .error err => .error err
    | .ok lv =>
      match evaluate r rv with
      | .error err => .error err
      | .ok rv2 =>
        match ValueTyped.equal_to lv rv2 with
        | .error msg => .error (.message msg)
        | .ok b => .ok (.bool b)
  | .greaterThan l r =>
    match evaluate l rv with
    | .error err => .error err
    | .ok lv =>
      match evaluate r rv with
      | .error err => .error err
      | .ok rv2 =>
        match ValueTyped.greater_than lv rv2 with
        | .error msg => .error (.message msg)
        | .ok b => .ok (.bool b)
  | .greaterThanOrEqualTo l r =>
    match evaluate l rv with
    | .error err => .error err
    | .ok lv =>
      match evaluate r rv with
      | .error err => .error err
      | .ok rv2 =>
        match ValueTyped.greater_than_or_equal_to lv rv2 with
        | .error msg => .error (.message msg)
        | .ok b => .ok (.bool b)
  | .lessThan l r =>
    match evaluate l rv with
    | .error err => .error err
    | .ok lv =>
      match evaluate r rv with
      | .error err => .error err
      | .ok rv2 =>
        match ValueTyped.less_than lv rv2 with
        | .error msg => .error (.message msg)
        | .ok b => .ok (.bool b)
  | .lessThanOrEqualTo l r =>
    match evaluate l rv with
    | .error err => .error err
    | .ok lv =>
      match evaluate r rv with
      | .error err => .error err
      | .ok rv2 =>
        match ValueTyped.less_than_or_equal_to lv rv2 with
        | .error msg => .error (.message msg)
        | .ok b => .ok (.bool b)
  | .not e =>
    match evaluate e rv with
    | .error err => .error err
    | .ok v =>
      match v.as_bool with
      | none => .error (.message ("The expression is evaluated to " ++ jsonDisplay v ++ " but it is not a boolean expression to apply not (!) operator on"))
      | some b => .ok (.bool !b)
  | .cond p a b =>
    match evaluate p rv with
    | .error err => .error err
    | .ok vp =>
      match evaluate a rv with
      | .error err => .error err
      | .ok va =>
        match evaluate b rv with
        | .error err => .error err
        | .ok vb =>
          match vp.as_bool with
          | none => .error (.message ("The predicate expression is evaluated to " ++ jsonDisplay vp ++ ", but it is not a boolean expression"))
          | some true => .ok va
          | some false => .ok vb
  | .sequence es =>
    match evalList es rv with
    | .error err => .error err
    | .ok vs => .ok (.arr vs)
  | .record fields =>
    match evalFields fields rv [] with
    | .error err => .error err
    | .ok fs => .ok (ValueTyped.ComplexJson (.obj fs))
  | .concat es =>
    match evalConcat es rv "" with
    | .error err => .error err
    | .ok s => .ok (.str s)
  | .literal s => .ok (ValueTyped.get_primitive_variant s)
  | .pathVar name =>
    match rv.get_key name with
    | some (.number n) => .ok (.number n)
    | some (.str s) => .ok (ValueTyped.from_string s)
    | some (.bool b) => .ok (ValueTyped.from_string (if b then "true" else "false"))
    | some v => .ok (ValueTyped.ComplexJson v)
    | none => .error (.message ("No value for the place holder " ++ name))

/-- The Expr::Sequence loop of `go`: evaluate in order, first error aborts. -/
def evalList (es : List Expr) (rv : ResolvedVariables) : Except EvaluationError (List Value) :=
  match es with
  | [] => .ok []
  | e :: rest =>
    match evaluate e rv with
    | .error err => .error err
    | .ok v =>
      match evalList rest rv with
      | .error err => .error err
      | .ok vs => .ok (v :: vs)

/-- The Expr::Record loop of `go`: evaluate each field in order into the
accumulated serde map, first error aborts. -/
def evalFields (fields : List (String × Expr)) (rv : ResolvedVariables)
    (acc : List (String × Value)) : Except EvaluationError (List (String × Value)) :=
  match fields with
  | [] => .ok acc
  | (k, e) :: rest =>
    match evaluate e rv with
    | .error err => .error err
    | .ok v => evalFields rest rv (mapInsert acc k (ValueTyped.convert_to_json v))

/-- The Expr::Concat loop of `go`: evaluate each part in order, append its
primitive string form, error on a complex part. -/
def evalConcat (es : List Expr) (rv : ResolvedVariables) (acc : String) : Except EvaluationError String :=
  match es with
  | [] => .ok acc
  | e :: rest =>
    match evaluate e rv with
    | .error err => .error err
    | .ok v =>
      match ValueTyped.get_primitive_string v with
      | some s => evalConcat rest rv (acc ++ s)
      | none => .error (.message ("Cannot append a complex expression " ++ jsonDisplay v ++ " to form strings. Please check the expression"))

end

mutual

/-- The absence of global inputs in a worker-bridge expression: no Request,
no WorkerResponse and no PathVar node (the three ways the evaluator reads
the context). -/
def noGlobals : Expr → Bool
  | .request => false
  | .workerResponse => false
  | .pathVar _ => false
  | .literal _ => true
  | .selectIndex e _ => noGlobals e
  | .selectField e _ => noGlobals e
  | .equalTo l r => noGlobals l && noGlobals r
  | .greaterThan l r => noGlobals l && noGlobals r
  | .greaterThanOrEqualTo l r => noGlobals l && noGlobals r
  | .lessThan l r => noGlobals l && noGlobals r
  | .lessThanOrEqualTo l r => noGlobals l && noGlobals r
  | .not e => noGlobals e
  | .cond p a b => noGlobals p && (noGlobals a && noGlobals b)
  | .sequence es => noGlobalsList es
  | .record fs => noGlobalsFields fs
  | .concat es => noGlobalsList es

/-- noGlobals over a list of expressions. -/
def noGlobalsList : List Expr → Bool
  | [] => true
  | e :: rest => noGlobals e && noGlobalsList rest

/-- noGlobals over record fields. -/
def noGlobalsFields : List (String × Expr) → Bool
  | [] => true
  | (_, e) :: rest => noGlobals e && noGlobalsFields rest

end

/-- Concatenation of a list of strings, in order. -/
def joinAll : List String → String
  | [] => ""
  | s :: ss => s ++ joinAll ss

/-- Claim C5's description of Concat, written from the spec's words: the
parts are evaluated left to right and the first error propagates; every
evaluated part must have a primitive string form, a complex value fails with
the quoted message; on success the string forms are returned in order. -/
def concatParts (es : List Expr) (rv : ResolvedVariables) : Except EvaluationError (List String) :=
  match es with
  | [] => .ok []
  | e :: rest =>
    match evaluate e rv with
    | .error err => .error err
    | .ok v =>
      match ValueTyped.get_primitive_string v with
      | none => .error (.message ("Cannot append a complex expression " ++ jsonDisplay v ++ " to form strings. Please check the expression"))
      | some s =>
        match concatParts rest rv with
        | .error err => .error err
        | .ok ss => .ok (s :: ss)

/-- An empty context: nothing resolvable. -/
def emptyCtx : ResolvedVariables := ⟨fun _ => none, fun _ => none⟩

/-- A context binding only the root key "x" to the JSON string "1". -/
def strOneCtx : ResolvedVariables :=
  ⟨fun n => if n = "x" then some (.str "1") else none, fun _ => none⟩

/-- The claim C2 conditional, as the Rib parser's grammar reads
`if request.headers.authorisation == "admin" then 200 else 401`: the string
literal carries no quotes (src/golem-rib/src/parser/literal.rs) and the
numeric branches are the decimal literals 200 and 401. -/
def authCheckExpr : Expr :=
  .cond
    (.equalTo (.selectField (.selectField .request "headers") "authorisation") (.literal "admin"))
    (.literal "200")
    (.literal "401")

/-- A context whose "request" path holds headers.authorisation bound to a
given string. -/
def authCtx (s : String) : ResolvedVariables :=
  ⟨fun _ => none,
   fun p => if p = "request" then some (.obj [("headers", .obj [("authorisation", .str s)])]) else none⟩

/-- The request context of the claim C6 scenario: request.body.titles is an
array of two strings. -/
def titlesCtx : ResolvedVariables :=
  ⟨fun _ => none,
   fun p =>
     if p = "request" then
       some (.obj [("body", .obj [("titles", .arr [.str "bTitle1", .str "bTitle2"])])])
     else none⟩

end Bridge

namespace Rib

/-- Modelled from the spec: the InferredType attached to every AST node
(src/golem-rib/src/inferred_type.rs is not among the sources); the variant
list is §3's. -/
inductive InferredType where
  | unknown : InferredType
  | bool : InferredType
  | str : InferredType
  | s8 : InferredType
  | s16 : InferredType
  | s32 : InferredType
  | s64 : InferredType
  | u8 : InferredType
  | u16 : InferredType
  | u32 : InferredType
  | u64 : InferredType
  | f32 : InferredType
  | f64 : InferredType
  | chr : InferredType
  | list (t : InferredType) : InferredType
  | tuple (ts : List InferredType) : InferredType
  | record (fields : List (String × InferredType)) : InferredType
  | option (t : InferredType) : InferredType
  | result (okT errT : InferredType) : InferredType
  | variant (cases : List (String × Option InferredType)) : InferredType
  | enum (names : List String) : InferredType
  | flags (names : List String) : InferredType
  | allOf (ts : List InferredType) : InferredType

/-- Modelled from the spec: the analysed-type model at the system boundary
(golem_wasm_ast::analysis::AnalysedType, an external crate); §3 calls it
isomorphic to InferredType without the inference-only Unknown and AllOf. -/
inductive AnalysedType where
  | bool : AnalysedType
  | str : AnalysedType
  | s8 : AnalysedType
  | s16 : AnalysedType
  | s32 : AnalysedType
  | s64 : AnalysedType
  | u8 : AnalysedType
  | u16 : AnalysedType
  | u32 : AnalysedType
  | u64 : AnalysedType
  | f32 : AnalysedType
  | f64 : AnalysedType
  | chr : AnalysedType
  | list (t : AnalysedType) : AnalysedType
  | tuple (ts : List AnalysedType) : AnalysedType
  | record (fields : List (String × AnalysedType)) : AnalysedType
  | option (t : AnalysedType) : AnalysedType
  | result (okT errT : AnalysedType) : AnalysedType
  | variant (cases : List (String × Option AnalysedType)) : AnalysedType
  | enum (names : List String) : AnalysedType
  | flags (names : List String) : AnalysedType

mutual

/-- Modelled from the spec: AnalysedType::try_from an InferredType (the
conversion lives outside the sources).  Concrete types convert structurally;
the inference-only Unknown and AllOf have no analysed form and fail. -/
def AnalysedType.tryFrom : InferredType → Except String AnalysedType
  | .unknown => .error "Cannot convert Unknown type to AnalysedType"
  | .bool => .ok .bool
  | .str => .ok .str
  | .s8 => .ok .s8
  | .s16 => .ok .s16
  | .s32 => .ok .s32
  | .s64 => .ok .s64
  | .u8 => .ok .u8
  | .u16 => .ok .u16
  | .u32 => .ok .u32
  | .u64 => .ok .u64
  | .f32 => .ok .f32
  | .f64 => .ok .f64
  | .chr => .ok .chr
  | .list t =>
    match AnalysedType.tryFrom t with
    | .error msg => .error msg
    | .ok a => .ok (.list a)
  | .tuple ts =>
    match AnalysedType.tryFromList ts with
    | .error msg => .error msg
    | .ok as_ => .ok (.tuple as_)
  | .record fields =>
    match AnalysedType.tryFromFields fields with
    | .error msg => .error msg
    | .ok fs => .ok (.record fs)
  | .option t =>
    match AnalysedType.tryFrom t with
    | .error msg => .error msg
    | .ok a => .ok (.option a)
  | .result okT errT =>
    match AnalysedType.tryFrom okT with
    | .error msg => .error msg
    | .ok a =>
      match AnalysedType.tryFrom errT with
      | .error msg => .error msg
      | .ok b => .ok (.result a b)
  | .variant cases =>
    match AnalysedType.tryFromCases cases with
    | .error msg => .error msg
    | .ok cs => .ok (.variant cs)
  | .enum names => .ok (.enum names)
  | .flags names => .ok (.flags names)
  | .allOf _ => .error "Cannot convert AllOf type to AnalysedType"

/-- tryFrom over a list of types. -/
def AnalysedType.tryFromList : List InferredType → Except String (List AnalysedType)
  | [] => .ok []
  | t :: rest =>
    match AnalysedType.tryFrom t with
    | .error msg => .error msg
    | .ok a =>
      match AnalysedType.tryFromList rest with
      | .error msg => .error msg
      | .ok as_ => .ok (a :: as_)

/-- tryFrom over record fields. -/
def AnalysedType.tryFromFields : List (String × InferredType) → Except String (List (String × AnalysedType))
  | [] => .ok []
  | (k, t) :: rest =>
    match AnalysedType.tryFrom t with
    | .error msg => .error msg
    | .ok a =>
      match AnalysedType.tryFromFields rest with
      | .error msg => .error msg
      | .ok fs => .ok ((k, a) :: fs)

/-- tryFrom over variant cases (payload optional). -/
def AnalysedType.tryFromCases : List (String × Option InferredType) → Except String (List (String × Option AnalysedType))
  | [] => .ok []
  | (k, none) :: rest =>
    match AnalysedType.tryFromCases rest with
    | .error msg => .error msg
    | .ok cs => .ok ((k, none) :: cs)
  | (k, some t) :: rest =>
    match AnalysedType.tryFrom t with
    | .error msg => .error msg
    | .ok a =>
      match AnalysedType.tryFromCases rest with
      | .error msg => .error msg
      | .ok cs => .ok ((k, some a) :: cs)

end

/-- Modelled from the spec: variable identifiers track name plus origin,
local binding or global (§3). -/
inductive VariableId where
  | global (name : String) : VariableId
  | localVar (name : String) : VariableId

/-- VariableId::is_global. -/
def VariableId.is_global : VariableId → Bool
  | .global _ => true
  | .localVar _ => false

/-- VariableId::name. -/
def VariableId.name : VariableId → String
  | .global n => n
  | .localVar n => n

/-- Modelled from the spec: arm patterns (§3), parameterised by the
expression type so the nested recursion with Expr stays a plain nested
inductive. -/
inductive ArmPatternF (α : Type) where
  | wildCard : ArmPatternF α
  | asP (name : String) (p : ArmPatternF α) : ArmPatternF α
  | constructorP (name : String) (ps : List (ArmPatternF α)) : ArmPatternF α
  | tupleConstructorP (ps : List (ArmPatternF α)) : ArmPatternF α
  | literalP (e : α) : ArmPatternF α

/-- Modelled from the spec: the golem-rib AST (§3's variant list; expr.rs is
not among the sources).  Every node carries its inferred-type slot. -/
inductive Expr where
  | literalE (s : String) (t : InferredType) : Expr
  | numberE (n : Int) (t : InferredType) : Expr
  | booleanE (b : Bool) (t : InferredType) : Expr
  | ident (vid : VariableId) (t : InferredType) : Expr
  | concatE (es : List Expr) (t : InferredType) : Expr
  | multipleE (es : List Expr) (t : InferredType) : Expr
  | sequenceE (es : List Expr) (t : InferredType) : Expr
  | recordE (fields : List (String × Expr)) (t : InferredType) : Expr
  | tupleE (es : List Expr) (t : InferredType) : Expr
  | optionE (inner : Option Expr) (t : InferredType) : Expr
  | resultE (isOk : Bool) (e : Expr) (t : InferredType) : Expr
  | flagsE (names : List String) (t : InferredType) : Expr
  | selectFieldE (e : Expr) (field : String) (t : InferredType) : Expr
  | selectIndexE (e : Expr) (index : Nat) (t : InferredType) : Expr
  | equalToE (l r : Expr) (t : InferredType) : Expr
  | greaterThanE (l r : Expr) (t : InferredType) : Expr
  | greaterThanOrEqualToE (l r : Expr) (t : InferredType) : Expr
  | lessThanE (l r : Expr) (t : InferredType) : Expr
  | lessThanOrEqualToE (l r : Expr) (t : InferredType) : Expr
  | notE (e : Expr) (t : InferredType) : Expr
  | condE (p a b : Expr) (t : InferredType) : Expr
  | patternMatchE (scrutinee : Expr) (arms : List (ArmPatternF Expr × Expr)) (t : InferredType) : Expr
  | requestE (t : InferredType) : Expr
  | workerResponseE (t : InferredType) : Expr

/-- The arm pattern type the parser and extractor work with. -/
abbrev ArmPattern := ArmPatternF Expr

/-- Modelled from the spec: Expr::literal, the parser's smart constructor;
the inferred-type slot starts at Unknown (§3). -/
def Expr.literal (s : String) : Expr := .literalE s .unknown

/-- Modelled from the spec: Expr::identifier; a bare name parses as a global
identifier (§3, §4.2), type slot Unknown. -/
def Expr.identifier (name : String) : Expr := .ident (.global name) .unknown

/-- Modelled from the spec: Expr::concat, type slot Unknown. -/
def Expr.concat (es : List Expr) : Expr := .concatE es .unknown

/-- Modelled from the spec: Expr::multiple, type slot Unknown. -/
def Expr.multiple (es : List Expr) : Expr := .multipleE es .unknown

mutual

/-- The expressions syntactically nested inside an arm pattern
(ArmPattern::Literal nodes at any depth). -/
def patternExprs : ArmPatternF Expr → List Expr
  | .wildCard => []
  | .asP _ p => patternExprs p
  | .constructorP _ ps => patternExprsList ps
  | .tupleConstructorP ps => patternExprsList ps
  | .literalP e => [e]

/-- patternExprs over a list of patterns. -/
def patternExprsList : List (ArmPatternF Expr) → List Expr
  | [] => []
  | p :: ps => patternExprs p ++ patternExprsList ps

/-- The expressions of a list of match arms: each arm's pattern literals
followed by its right-hand side. -/
def armsExprs : List (ArmPatternF Expr × Expr) → List Expr
  | [] => []
  | (p, rhs) :: rest => patternExprs p ++ (rhs :: armsExprs rest)

end

/-- Modelled from the spec: the children enumeration used by the extractor's
worklist (Expr::visit_children_mut_bottom_up, expr.rs not among the
sources): the direct subexpressions of a node, pattern-match arms included
(§9: passes walk children via an explicit worklist). -/
def children : Expr → List Expr
  | .literalE _ _ => []
  | .numberE _ _ => []
  | .booleanE _ _ => []
  | .ident _ _ => []
  | .concatE es _ => es
  | .multipleE es _ => es
  | .sequenceE es _ => es
  | .recordE fields _ => fields.map Prod.snd
  | .tupleE es _ => es
  | .optionE none _ => []
  | .optionE (some e) _ => [e]
  | .resultE _ e _ => [e]
  | .flagsE _ _ => []
  | .selectFieldE e _ _ => [e]
  | .selectIndexE e _ _ => [e]
  | .equalToE l r _ => [l, r]
  | .greaterThanE l r _ => [l, r]
  | .greaterThanOrEqualToE l r _ => [l, r]
  | .lessThanE l r _ => [l, r]
  | .lessThanOrEqualToE l r _ => [l, r]
  | .notE e _ => [e]
  | .condE p a b _ => [p, a, b]
  | .patternMatchE s arms _ => s :: armsExprs arms
  | .requestE _ => []
  | .workerResponseE _ => []

mutual

/-- Node count of an expression, the worklist termination measure. -/
def exprSize : Expr → Nat
  | .literalE _ _ => 1
  | .numberE _ _ => 1
  | .booleanE _ _ => 1
  | .ident _ _ => 1
  | .concatE es _ => 1 + exprListSize es
  | .multipleE es _ => 1 + exprListSize es
  | .sequenceE es _ => 1 + exprListSize es
  | .recordE fields _ => 1 + exprFieldsSize fields
  | .tupleE es _ => 1 + exprListSize es
  | .optionE none _ => 1
  | .optionE (some e) _ => 1 + exprSize e
  | .resultE _ e _ => 1 + exprSize e
  | .flagsE _ _ => 1
  | .selectFieldE e _ _ => 1 + exprSize e
  | .selectIndexE e _ _ => 1 + exprSize e
  | .equalToE l r _ => 1 + exprSize l + exprSize r
  | .greaterThanE l r _ => 1 + exprSize l + exprSize r
  | .greaterThanOrEqualToE l r _ => 1 + exprSize l + exprSize r
  | .lessThanE l r _ => 1 + exprSize l + exprSize r
  | .lessThanOrEqualToE l r _ => 1 + exprSize l + exprSize r
  | .notE e _ => 1 + exprSize e
  | .condE p a b _ => 1 + exprSize p + exprSize a + exprSize b
  | .patternMatchE s arms _ => 1 + exprSize s + armsSize arms
  | .requestE _ => 1
  | .workerResponseE _ => 1

/-- Total node count of a list of expressions. -/
def exprListSize : List Expr → Nat
  | [] => 0
  | e :: rest => exprSize e + exprListSize rest

/-- Total node count of record fields. -/
def exprFieldsSize : List (String × Expr) → Nat
  | [] => 0
  | (_, e) :: rest => exprSize e + exprFieldsSize rest

/-- Total node count of match arms. -/
def armsSize : List (ArmPatternF Expr × Expr) → Nat
  | [] => 0
  | (p, rhs) :: rest => patternSize p + exprSize rhs + armsSize rest

/-- Node count of an arm pattern. -/
def patternSize : ArmPatternF Expr → Nat
  | .wildCard => 1
  | .asP _ p => 1 + patternSize p
  | .constructorP _ ps => 1 + patternListSize ps
  | .tupleConstructorP ps => 1 + patternListSize ps
  | .literalP e => 1 + exprSize e

/-- Total node count of a list of arm patterns. -/
def patternListSize : List (ArmPatternF Expr) → Nat
  | [] => 0
  | p :: ps => patternSize p + patternListSize ps

end

/-- exprListSize distributes over append. -/
theorem exprListSize_append (l1 l2 : List Expr) :
    exprListSize (l1 ++ l2) = exprListSize l1 + exprListSize l2 := by
  induction l1 with
  | nil => simp [exprListSize]
  | cons e rest ih => simp [exprListSize, ih]; omega

/-- Every arm pattern counts at least one node. -/
theorem patternSize_pos (p : ArmPatternF Expr) : 1 ≤ patternSize p := by
  cases p <;> simp [patternSize]

/-- The expressions inside an arm pattern are fewer nodes than the pattern,
with the corresponding bounds for pattern lists and whole arms. -/
theorem patternExprs_size_bound (n : Nat) :
    (∀ p : ArmPatternF Expr, patternSize p ≤ n → exprListSize (patternExprs p) < patternSize p) ∧
    (∀ ps : List (ArmPatternF Expr), patternListSize ps ≤ n → exprListSize (patternExprsList ps) ≤ patternListSize ps) ∧
    (∀ arms : List (ArmPatternF Expr × Expr), armsSize arms ≤ n → exprListSize (armsExprs arms) ≤ armsSize arms) := by
  induction n with
  | zero =>
    refine ⟨fun p hp => absurd (le_trans (patternSize_pos p) hp) (by omega), fun ps hps => ?_, fun arms harms => ?_⟩
    · cases ps with
      | nil => simp [patternExprsList, exprListSize]
      | cons p ps => exact absurd hps (by simp [patternListSize]; have := patternSize_pos p; omega)
    · cases arms with
      | nil => simp [armsExprs, exprListSize]
      | cons arm rest =>
        obtain ⟨p, rhs⟩ := arm
        exact absurd harms (by simp [armsSize]; have := patternSize_pos p; omega)
  | succ n ih =>
    obtain ⟨ihp, ihps, iharms⟩ := ih
    have hPat : ∀ p : ArmPatternF Expr, patternSize p ≤ n + 1 →
        exprListSize (patternExprs p) < patternSize p := by
      intro p hp
      cases p with
      | wildCard => simp [patternExprs, exprListSize, patternSize]
      | asP name q =>
        have h1 : patternSize q ≤ n := by simp [patternSize] at hp; omega
        have := ihp q h1
        simp only [patternExprs, patternSize]
        omega
      | constructorP name ps =>
        have h1 : patternListSize ps ≤ n := by simp [patternSize] at hp; omega
        have := ihps ps h1
        simp only [patternExprs, patternSize]
        omega
      | tupleConstructorP ps =>
        have h1 : patternListSize ps ≤ n := by simp [patternSize] at hp; omega
        have := ihps ps h1
        simp only [patternExprs, patternSize]
        omega
      | literalP e => simp [patternExprs, exprListSize, patternSize]
    refine ⟨hPat, fun ps hps => ?_, fun arms harms => ?_⟩
    · cases ps with
      | nil => simp [patternExprsList, exprListSize]
      | cons p ps =>
        have hpos := patternSize_pos p
        simp only [patternListSize] at hps
        have h1 := hPat p (by omega)
        have h2 := ihps ps (by omega)
        simp only [patternExprsList, patternListSize, exprListSize_append]
        omega
    · cases arms with
      | nil => simp [armsExprs, exprListSize]
      | cons arm rest =>
        obtain ⟨p, rhs⟩ := arm
        have hpos := patternSize_pos p
        simp only [armsSize] at harms
        have h1 := hPat p (by omega)
        have h2 := iharms rest (by omega)
        simp only [armsExprs, armsSize, exprListSize_append, exprListSize]
        omega

/-- HashMap::insert on the flat name-to-type mapping: replaces the binding
of an existing key, otherwise adds the key. -/
def insertType : List (String × AnalysedType) → String → AnalysedType → List (String × AnalysedType)
  | [], k, a => [(k, a)]
  | (k0, a0) :: rest, k, a =>
    if k0 = k then (k, a) :: rest else (k0, a0) :: insertType rest k a

/-- The node count of the field values of a record equals the fields walker
count. -/
theorem exprListSize_map_snd (fs : List (String × Expr)) :
    exprListSize (fs.map Prod.snd) = exprFieldsSize fs := by
  induction fs with
  | nil => simp [exprListSize, exprFieldsSize]
  | cons f rest ih =>
    obtain ⟨k, e⟩ := f
    simp [exprListSize, exprFieldsSize, ih]

/-- A node's children count strictly fewer nodes than the node itself. -/
theorem children_size_lt (e : Expr) : exprListSize (children e) < exprSize e := by
  cases e with
  | recordE fields t => simp [children, exprSize, exprListSize_map_snd]
  | optionE inner t => cases inner <;> simp [children, exprSize, exprListSize]
  | patternMatchE s arms t =>
    have := (patternExprs_size_bound (armsSize arms)).2.2 arms le_rfl
    simp only [children, exprSize, exprListSize]
    omega
  | _ => simp [children, exprSize, exprListSize] <;> omega

/-- The worklist of RibInputTypeInfo::from_expr
(src/golem-rib/src/type_inference/rib_input_type.rs): pop an expression from
the deque; a global identifier's inferred type is converted and inserted
under its name, any other node has its children pushed.  The queue is
represented with its popping end at the head; the order in which
visit_children_mut_bottom_up pushes the children is modelled (expr.rs is
not among the sources), so here children are visited left to right. -/
def fromExprGo : List Expr → List (String × AnalysedType) → Except String (List (String × AnalysedType))
  | [], acc => .ok acc
  | .ident vid t :: rest, acc =>
    if vid.is_global then
      match AnalysedType.tryFrom t with
      | .error msg => .error msg
      | .ok a => fromExprGo rest (insertType acc vid.name a)
    else fromExprGo rest acc
  | e :: rest, acc => fromExprGo (children e ++ rest) acc
termination_by queue _ => exprListSize queue
decreasing_by
  · simp [exprListSize, exprSize]
  · simp [exprListSize, exprSize]
  · have h1 := children_size_lt e
    simp only [exprListSize_append, exprListSize]
    omega

/-- The flat mapping RibInputTypeInfo carries (HashMap modelled as an
association list with insert-replace semantics). -/
structure RibInputTypeInfo where
  types : List (String × AnalysedType)

/-- RibInputTypeInfo::from_expr
(src/golem-rib/src/type_inference/rib_input_type.rs): seed the worklist with
the root expression and collect the global identifiers' analysed types. -/
def RibInputTypeInfo.from_expr (e : Expr) : Except String RibInputTypeInfo :=
  match fromExprGo [e] [] with
  | .error msg => .error msg
  | .ok types => .ok ⟨types⟩

mutual

/-- The (name, inferred type) pairs of all global identifier occurrences in
an expression, in a left-to-right structural walk: the specification-side
description of what the extractor must collect. -/
def globalBindings : Expr → List (String × InferredType)
  | .ident vid t => if vid.is_global then [(vid.name, t)] else []
  | .literalE _ _ => []
  | .numberE _ _ => []
  | .booleanE _ _ => []
  | .concatE es _ => globalBindingsList es
  | .multipleE es _ => globalBindingsList es
  | .sequenceE es _ => globalBindingsList es
  | .recordE fields _ => globalBindingsFields fields
  | .tupleE es _ => globalBindingsList es
  | .optionE none _ => []
  | .optionE (some e) _ => globalBindings e
  | .resultE _ e _ => globalBindings e
  | .flagsE _ _ => []
  | .selectFieldE e _ _ => globalBindings e
  | .selectIndexE e _ _ => globalBindings e
  | .equalToE l r _ => globalBindings l ++ globalBindings r
  | .greaterThanE l r _ => globalBindings l ++ globalBindings r
  | .greaterThanOrEqualToE l r _ => globalBindings l ++ globalBindings r
  | .lessThanE l r _ => globalBindings l ++ globalBindings r
  | .lessThanOrEqualToE l r _ => globalBindings l ++ globalBindings r
  | .notE e _ => globalBindings e
  | .condE p a b _ => globalBindings p ++ (globalBindings a ++ globalBindings b)
  | .patternMatchE s arms _ => globalBindings s ++ globalBindingsArms arms
  | .requestE _ => []
  | .workerResponseE _ => []

/-- globalBindings over a list of expressions. -/
def globalBindingsList : List Expr → List (String × InferredType)
  | [] => []
  | e :: rest => globalBindings e ++ globalBindingsList rest

/-- globalBindings over record fields. -/
def globalBindingsFields : List (String × Expr) → List (String × InferredType)
  | [] => []
  | (_, e) :: rest => globalBindings e ++ globalBindingsFields rest

/-- globalBindings over match arms: pattern literals first, then the
right-hand side. -/
def globalBindingsArms : List (ArmPatternF Expr × Expr) → List (String × InferredType)
  | [] => []
  | (p, rhs) :: rest => globalBindingsPattern p ++ (globalBindings rhs ++ globalBindingsArms rest)

/-- globalBindings over the literal expressions of an arm pattern. -/
def globalBindingsPattern : ArmPatternF Expr → List (String × InferredType)
  | .wildCard => []
  | .asP _ p => globalBindingsPattern p
  | .constructorP _ ps => globalBindingsPatternList ps
  | .tupleConstructorP ps => globalBindingsPatternList ps
  | .literalP e => globalBindings e

/-- globalBindings over a list of arm patterns. -/
def globalBindingsPatternList : List (ArmPatternF Expr) → List (String × InferredType)
  | [] => []
  | p :: ps => globalBindingsPattern p ++ globalBindingsPatternList ps

end

/-- The names of the global identifiers occurring in an expression. -/
def globalNames (e : Expr) : List String :=
  (globalBindings e).map Prod.fst

/-- The double-quote character, written by code so the character set scans
plainly. -/
def quoteChar : Char := Char.ofNat 34

/-- The opening-brace character. -/
def lbraceChar : Char := Char.ofNat 123

/-- The closing-brace character. -/
def rbraceChar : Char := Char.ofNat 125

/-- Result of running a combine-style parser: success with the value, the
remaining input and whether any input was consumed, or failure with the
consumed flag (combine, like parsec, commits to an alternative once it has
consumed input). -/
inductive PResult (α : Type) where
  | ok (a : α) (rest : List Char) (consumed : Bool) : PResult α
  | err (consumed : Bool) : PResult α

/-- A parser over characters. -/
def ParserFn (α : Type) : Type := List Char → PResult α

/-- A parser accepting nothing and yielding a value. -/
def pureP {α : Type} (a : α) : ParserFn α := fun input => .ok a input false

/-- Sequencing of parsers; consumed flags accumulate. -/
def bindP {α β : Type} (p : ParserFn α) (f : α → ParserFn β) : ParserFn β := fun input =>
  match p input with
  | .err c => .err c
  | .ok a rest c1 =>
    match f a rest with
    | .ok b rest2 c2 => .ok b rest2 (c1 || c2)
    | .err c2 => .err (c1 || c2)

/-- Mapping over a parser result (combine's .map). -/
def mapP {α β : Type} (p : ParserFn α) (f : α → β) : ParserFn β :=
  bindP p (fun a => pureP (f a))

/-- A single character satisfying a predicate (combine's satisfy; letter,
digit, space and char_ are its instances). -/
def satisfyP (pred : Char → Bool) : ParserFn Char := fun input =>
  match input with
  | [] => .err false
  | c :: rest => if pred c then .ok c rest true else .err false

/-- combine's char_. -/
def charP (c : Char) : ParserFn Char := satisfyP (fun x => x == c)

/-- Alternation (combine's .or / choice): the second alternative runs only
when the first fails without consuming input. -/
def orP {α : Type} (p q : ParserFn α) : ParserFn α := fun input =>
  match p input with
  | .err false => q input
  | r => r

/-- combine's .with: run both, keep the right value. -/
def seqRight {α β : Type} (p : ParserFn α) (q : ParserFn β) : ParserFn β :=
  bindP p (fun _ => q)

/-- combine's .skip: run both, keep the left value. -/
def seqLeft {α β : Type} (p : ParserFn α) (q : ParserFn β) : ParserFn α :=
  bindP p (fun a => mapP q (fun _ => a))

/-- combine's between(open, close, p): open .with p .skip close. -/
def betweenP {α β γ : Type} (openP : ParserFn α) (closeP : ParserFn β) (mid : ParserFn γ) : ParserFn γ :=
  seqLeft (seqRight openP mid) closeP

/-- The iteration of combine's many, with explicit fuel: collect results
while the parser succeeds consuming input; stop at a non-consuming failure;
fail when the parser fails after consuming.  The fuel is set to more than
the input length, which a consuming parser can never exhaust. -/
def manyGo {α : Type} (p : ParserFn α) : Nat → List Char → PResult (List α)
  | 0, input => .ok [] input false
  | fuel + 1, input =>
    match p input with
    | .ok a rest true =>
      (match manyGo p fuel rest with
       | .ok xs rest2 _ => .ok (a :: xs) rest2 true
       | .err _ => .err true)
    | .ok _ _ false => .ok [] input false
    | .err true => .err true
    | .err false => .ok [] input false

/-- combine's many. -/
def manyP {α : Type} (p : ParserFn α) : ParserFn (List α) := fun input =>
  manyGo p (input.length + 1) input

/-- combine's many1: one occurrence followed by many. -/
def many1P {α : Type} (p : ParserFn α) : ParserFn (List α) :=
  bindP p (fun a => mapP (manyP p) (fun xs => a :: xs))

/-- combine's spaces(): zero or more whitespace characters. -/
def spacesP : ParserFn Unit :=
  mapP (manyP (satisfyP Char.isWhitespace)) (fun _ => ())

/-- combine's sep_by1. -/
def sepBy1 {α β : Type} (p : ParserFn α) (sep : ParserFn β) : ParserFn (List α) :=
  bindP p (fun a => mapP (manyP (seqRight sep p)) (fun xs => a :: xs))

/-- combine's sep_by: sep_by1 or empty. -/
def sepByP {α β : Type} (p : ParserFn α) (sep : ParserFn β) : ParserFn (List α) :=
  orP (sepBy1 p sep) (pureP [])

/-- The static-character alternatives of static_part
(src/golem-rib/src/parser/literal.rs): letter or space or digit or one of
_ - . / : @, with the source's .or nesting.  combine's Unicode letter() is
modelled by Char.isAlpha. -/
def staticCharChoice : ParserFn Char :=
  orP (orP (orP (satisfyP Char.isAlpha) (satisfyP Char.isWhitespace)) (satisfyP Char.isDigit))
    (orP (satisfyP (fun c => c == '_'))
      (orP (orP (orP (satisfyP (fun c => c == '-')) (satisfyP (fun c => c == '.'))) (satisfyP (fun c => c == '/')))
        (orP (satisfyP (fun c => c == ':')) (satisfyP (fun c => c == '@')))))

/-- The character set staticCharChoice accepts. -/
def isStaticChar (c : Char) : Bool :=
  c.isAlpha || c.isWhitespace || c.isDigit || c == '_' || c == '-' || c == '.' || c == '/' || c == ':' || c == '@'

/-- static_part (src/golem-rib/src/parser/literal.rs): a nonempty run of
static characters, as a Literal (the .message decoration only names parse
errors and is not modelled). -/
def static_part : ParserFn Expr :=
  mapP (many1P staticCharChoice) (fun cs => Expr.literal (String.mk cs))

/-- The characters an identifier of the modelled rib_expr may contain. -/
def identChar (c : Char) : Bool := c.isAlpha || c.isDigit || c == '_'

/-- Modelled from the spec: the rib_expr parser used for interpolation
bodies (src/golem-rib/src/parser/rib_expr.rs is not among the sources).
Of §4.1's expression grammar only the `ident` atom production is modelled —
the only production the interpolation bodies of these claims exercise: a
nonempty run of letters, digits and underscores parsed as an identifier. -/
def ribExprModel : ParserFn Expr :=
  mapP (many1P (satisfyP identChar)) (fun cs => Expr.identifier (String.mk cs))

/-- block (src/golem-rib/src/parser/literal.rs): semicolon-separated
expressions, a single expression collapsing to itself, otherwise a Multiple.
The recursion point rib_expr is a parameter. -/
def block (body : ParserFn Expr) : ParserFn Expr :=
  seqRight spacesP
    (mapP (sepByP (seqLeft body spacesP) (seqLeft (charP ';') spacesP))
      (fun exprs =>
        match exprs with
        | [e] => e
        | es => Expr.multiple es))

/-- interpolation (src/golem-rib/src/parser/literal.rs): a block between
a dollar-brace opener (with trailing spaces) and a closing brace. -/
def interpolation (body : ParserFn Expr) : ParserFn Expr :=
  betweenP (seqLeft (seqRight (charP '$') (charP lbraceChar)) spacesP)
    (charP rbraceChar)
    (block body)

/-- literal_ (src/golem-rib/src/parser/literal.rs): leading spaces, then a
double-quoted run of interpolation-or-static parts; no part collapses to
Literal(""), exactly one part to that part, several parts to a Concat. -/
def literal_ (body : ParserFn Expr) : ParserFn Expr :=
  seqRight spacesP
    (mapP
      (betweenP (charP quoteChar) (charP quoteChar)
        (manyP (orP (interpolation body) static_part)))
      (fun parts =>
        match parts with
        | [] => Expr.literal ""
        | [p] => p
        | ps => Expr.concat ps))

/-- The literal parser with the modelled rib_expr as its interpolation
body. -/
def literalParser : ParserFn Expr := literal_ ribExprModel

end Rib

namespace Bridge

/-- Evaluating a Concat accumulator loop equals collecting the primitive
string forms first and appending them to the accumulator. -/
theorem evalConcat_eq_concatParts (es : List Expr) (rv : ResolvedVariables) :
    ∀ acc : String, evalConcat es rv acc =
      match concatParts es rv with
      | .error err => .error err
      | .ok ss => .ok (acc ++ joinAll ss) := by
  induction es with
  | nil => intro acc; simp [evalConcat, concatParts, joinAll]
  | cons e rest ih =>
    intro acc
    simp only [evalConcat, concatParts]
    cases h : evaluate e rv with
    | error err => simp
    | ok v =>
      cases hv : ValueTyped.get_primitive_string v with
      | none => simp [hv]
      | some s =>
        simp only [hv]
        rw [ih (acc ++ s)]
        cases hr : concatParts rest rv with
        | error err => simp
        | ok ss => simp [joinAll, String.append_assoc]

/-- C5 (amended: the evaluator's message carries the trailing sentence
". Please check the expression").  Concat evaluates its parts left to right
with the first error propagating; a part without a primitive string form
fails with exactly the quoted message; on success the result is the
concatenation of the parts' string forms. -/
theorem claim_C5_concat_semantics :
    (∀ es rv, evaluate (Expr.concat es) rv =
      match concatParts es rv with
      | .error err => .error err
      | .ok ss => .ok (Value.str (joinAll ss))) ∧
    (∀ e es rv v, evaluate e rv = .ok v → ValueTyped.get_primitive_string v = none →
      evaluate (Expr.concat (e :: es)) rv =
        .error (.message ("Cannot append a complex expression " ++ jsonDisplay v ++ " to form strings. Please check the expression"))) := by
  constructor
  · intro es rv
    simp only [evaluate]
    rw [evalConcat_eq_concatParts]
    cases concatParts es rv <;> simp
  · intro e es rv v he hv
    simp only [evaluate, evalConcat, he, hv]

/-- C5 witness: a sequence value has no primitive string form, and the
failure message ends with the trailing sentence. -/
theorem claim_C5_witness :
    evaluate (Expr.concat [Expr.sequence [Expr.literal "1"]]) emptyCtx =
      .error (.message "Cannot append a complex expression [1] to form strings. Please check the expression") := by
  have h := claim_C5_concat_semantics.2 (Expr.sequence [Expr.literal "1"]) [] emptyCtx
    (Value.arr [Value.number 1])
    (by simp [evaluate, evalList, ValueTyped.get_primitive_variant, ValueTyped.from_string,
          parseIntChars, digitsToNat])
    (by rfl)
  simpa [jsonDisplay, jsonDisplayItems] using h

/-- C5 counterexample: at Concat([Sequence([])]) the evaluator's message is
the claim's message followed by ". Please check the expression", so it is
not the claim's exact message. -/
theorem claim_C5_counterexample :
    evaluate (Expr.concat [Expr.sequence []]) emptyCtx =
      .error (.message "Cannot append a complex expression [] to form strings. Please check the expression") ∧
    EvaluationError.message "Cannot append a complex expression [] to form strings. Please check the expression" ≠
      EvaluationError.message "Cannot append a complex expression [] to form strings" := by
  constructor
  · simp [evaluate, evalConcat, evalList, ValueTyped.get_primitive_string, jsonDisplay,
      jsonDisplayItems]
  · intro h
    exact absurd (EvaluationError.message.inj h) (by decide)

/-- C3: Cond evaluates the predicate and then both branches — an error in
either branch propagates even when that branch is not selected; a
non-boolean predicate fails with exactly the quoted message around its
displayed value; otherwise the already-evaluated selected branch is
returned. -/
theorem claim_C3_cond_semantics :
    (∀ p a b rv, evaluate (Expr.cond p a b) rv =
      match evaluate p rv with
      | .error err => .error err
      | .ok vp =>
        match evaluate a rv with
        | .error err => .error err
        | .ok va =>
          match evaluate b rv with
          | .error err => .error err
          | .ok vb =>
            match vp.as_bool with
            | none => .error (.message ("The predicate expression is evaluated to " ++ jsonDisplay vp ++ ", but it is not a boolean expression"))
            | some true => .ok va
            | some false => .ok vb) ∧
    (∀ p a b rv vp va err, evaluate p rv = .ok vp → evaluate a rv = .ok va →
      evaluate b rv = .error err → evaluate (Expr.cond p a b) rv = .error err) := by
  constructor
  · intro p a b rv
    simp only [evaluate]
  · intro p a b rv vp va err hp ha hb
    simp only [evaluate, hp, ha, hb]

/-- C3 witness: with a true predicate and a selected first branch, an error
in the unselected second branch still propagates. -/
theorem claim_C3_witness :
    evaluate (Expr.cond (Expr.literal "true") (Expr.literal "1") (Expr.pathVar "missing")) emptyCtx =
      .error (.message "No value for the place holder missing") := by
  exact claim_C3_cond_semantics.2 (Expr.literal "true") (Expr.literal "1") (Expr.pathVar "missing")
    emptyCtx (Value.bool true) (Value.number 1) (.message "No value for the place holder missing")
    (by simp [evaluate, ValueTyped.get_primitive_variant, ValueTyped.from_string, parseIntChars])
    (by simp [evaluate, ValueTyped.get_primitive_variant, ValueTyped.from_string, parseIntChars,
          digitsToNat])
    (by simp [evaluate, emptyCtx])

/-- C6: SelectIndex evaluates its expression first and propagates its error;
a non-array result fails with exactly the first quoted message, an array
shorter than index+1 with exactly the second; otherwise the element at the
index is returned; and the request.body.titles[4] scenario with two titles
produces the second message. -/
theorem claim_C6_select_index :
    (∀ e i rv err, evaluate e rv = .error err →
      evaluate (Expr.selectIndex e i) rv = .error err) ∧
    (∀ e i rv v, evaluate e rv = .ok v → v.as_array = none →
      evaluate (Expr.selectIndex e i) rv =
        .error (.message ("Result is not an array to get the index " ++ toString i))) ∧
    (∀ e i rv xs, evaluate e rv = .ok (Value.arr xs) → xs.length ≤ i →
      evaluate (Expr.selectIndex e i) rv =
        .error (.message ("The array doesn't contain " ++ toString i ++ " elements"))) ∧
    (∀ e i rv xs x, evaluate e rv = .ok (Value.arr xs) → xs.get? i = some x →
      evaluate (Expr.selectIndex e i) rv = .ok x) ∧
    evaluate (Expr.selectIndex (Expr.selectField (Expr.selectField Expr.request "body") "titles") 4) titlesCtx =
      .error (.message "The array doesn't contain 4 elements") := by
  refine ⟨?_, ?_, ?_, ?_, ?_⟩
  · intro e i rv err he
    simp only [evaluate, he]
  · intro e i rv v he hv
    simp only [evaluate, he, hv]
  · intro e i rv xs he hlen
    have hget : xs.get? i = none := by
      rw [List.get?_eq_none]
      exact hlen
    simp only [evaluate, he, Value.as_array, hget]
  · intro e i rv xs x he hget
    simp only [evaluate, he, Value.as_array, hget]
  · simp only [evaluate, titlesCtx, Value.as_object, Value.as_array, List.lookup, List.get?]
    norm_num
    rfl

/-- C6 witness: indexing a number fails with the first message. -/
theorem claim_C6_witness :
    evaluate (Expr.selectIndex (Expr.literal "1") 0) emptyCtx =
      .error (.message "Result is not an array to get the index 0") := by
  have h := claim_C6_select_index.2.1 (Expr.literal "1") 0 emptyCtx (Value.number 1)
    (by simp [evaluate, ValueTyped.get_primitive_variant, ValueTyped.from_string, parseIntChars,
          digitsToNat])
    (by rfl)
  simpa using h

/-- C10: Record fields are evaluated in source order and the first error
aborts the whole record; a duplicated field name does not fail — the later
field's value replaces the earlier one in the resulting object. -/
theorem claim_C10_record_semantics :
    (∀ rv k1 e1 rest err, evaluate e1 rv = .error err →
      evaluate (Expr.record ((k1, e1) :: rest)) rv = .error err) ∧
    (∀ rv k1 e1 k2 e2 v1 err, evaluate e1 rv = .ok v1 → evaluate e2 rv = .error err →
      evaluate (Expr.record [(k1, e1), (k2, e2)]) rv = .error err) ∧
    (∀ rv k e1 e2 v1 v2, evaluate e1 rv = .ok v1 → evaluate e2 rv = .ok v2 →
      evaluate (Expr.record [(k, e1), (k, e2)]) rv = .ok (Value.obj [(k, v2)])) := by
  refine ⟨?_, ?_, ?_⟩
  · intro rv k1 e1 rest err h1
    simp only [evaluate, evalFields, h1]
  · intro rv k1 e1 k2 e2 v1 err h1 h2
    simp only [evaluate, evalFields, h1, h2]
  · intro rv k e1 e2 v1 v2 h1 h2
    simp [evaluate, evalFields, h1, h2, mapInsert, ValueTyped.convert_to_json,
      ValueTyped.ComplexJson]

/-- C4 (amended: only numbers are preserved unconditionally; a boolean comes
back as a boolean through its string form, and a string is preserved only
when its typed re-parsing leaves it a string — a numeric or boolean-looking
string changes type).  A missing key produces exactly the quoted message;
objects and arrays come back as ComplexJson. -/
theorem claim_C4_identifier_semantics :
    (∀ rv name, rv.get_key name = none →
      evaluate (Expr.pathVar name) rv = .error (.message ("No value for the place holder " ++ name))) ∧
    (∀ rv name n, rv.get_key name = some (Value.number n) →
      evaluate (Expr.pathVar name) rv = .ok (Value.number n)) ∧
    (∀ rv name b, rv.get_key name = some (Value.bool b) →
      evaluate (Expr.pathVar name) rv = .ok (Value.bool b)) ∧
    (∀ rv name s, rv.get_key name = some (Value.str s) →
      evaluate (Expr.pathVar name) rv = .ok (ValueTyped.from_string s)) ∧
    (∀ rv name s, rv.get_key name = some (Value.str s) →
      parseIntChars s.data = none → s ≠ "true" → s ≠ "false" →
      evaluate (Expr.pathVar name) rv = .ok (Value.str s)) ∧
    (∀ rv name xs, rv.get_key name = some (Value.arr xs) →
      evaluate (Expr.pathVar name) rv = .ok (ValueTyped.ComplexJson (Value.arr xs))) ∧
    (∀ rv name fs, rv.get_key name = some (Value.obj fs) →
      evaluate (Expr.pathVar name) rv = .ok (ValueTyped.ComplexJson (Value.obj fs))) := by
  refine ⟨?_, ?_, ?_, ?_, ?_, ?_, ?_⟩
  · intro rv name h
    simp only [evaluate, h]
  · intro rv name n h
    simp only [evaluate, h]
  · intro rv name b h
    cases b <;> simp [evaluate, h, ValueTyped.from_string, parseIntChars]
  · intro rv name s h
    simp only [evaluate, h]
  · intro rv name s h hint htrue hfalse
    simp [evaluate, h, ValueTyped.from_string, hint, htrue, hfalse]
  · intro rv name xs h
    simp only [evaluate, h]
  · intro rv name fs h
    simp only [evaluate, h]

/-- C4 witness: a missing key yields exactly the quoted message. -/
theorem claim_C4_witness :
    evaluate (Expr.pathVar "nope") emptyCtx = .error (.message "No value for the place holder nope") := by
  exact claim_C4_identifier_semantics.1 emptyCtx "nope" rfl

/-- C4 counterexample: the claim says a JSON string primitive is preserved
as the same primitive, but the context string "1" evaluates to the number
1. -/
theorem claim_C4_counterexample :
    evaluate (Expr.pathVar "x") strOneCtx = .ok (Value.number 1) ∧
    Value.number 1 ≠ Value.str "1" := by
  constructor
  · simp [evaluate, strOneCtx, ValueTyped.from_string, parseIntChars, digitsToNat]
  · intro h
    exact Value.noConfusion h

/-- C2: the conditional comparing request.headers.authorisation with the
literal "admin" evaluates to the number 200 when the bound string is
"admin", and to 401 for every other bound string. -/
theorem claim_C2_admin_conditional :
    (∀ rv, rv.get_path "request" = some (Value.obj [("headers", Value.obj [("authorisation", Value.str "admin")])]) →
      evaluate authCheckExpr rv = .ok (Value.number 200)) ∧
    (∀ rv s, s ≠ "admin" →
      rv.get_path "request" = some (Value.obj [("headers", Value.obj [("authorisation", Value.str s)])]) →
      evaluate authCheckExpr rv = .ok (Value.number 401)) := by
  constructor
  · intro rv h
    simp [authCheckExpr, evaluate, h, Value.as_object, List.lookup, ValueTyped.equal_to,
      ValueTyped.get_primitive_variant, ValueTyped.from_string, parseIntChars, digitsToNat,
      Value.as_bool]
  · intro rv s hs h
    have hbeq : (s == "admin") = false := by simp [hs]
    simp [authCheckExpr, evaluate, h, Value.as_object, List.lookup, ValueTyped.equal_to,
      ValueTyped.get_primitive_variant, ValueTyped.from_string, parseIntChars, digitsToNat,
      Value.as_bool, hbeq]

/-- C2 witness: the string "guest" is not "admin", and the conditional
yields 401. -/
theorem claim_C2_witness :
    evaluate authCheckExpr (authCtx "guest") = .ok (Value.number 401) := by
  exact claim_C2_admin_conditional.2 (authCtx "guest") "guest" (by decide) (by simp [authCtx])

/-- C10 witness: a record with a duplicated field keeps the later value. -/
theorem claim_C10_witness :
    evaluate (Expr.record [("a", Expr.literal "1"), ("a", Expr.literal "2")]) emptyCtx =
      .ok (Value.obj [("a", Value.number 2)]) := by
  exact claim_C10_record_semantics.2.2 emptyCtx "a" (Expr.literal "1") (Expr.literal "2")
    (Value.number 1) (Value.number 2)
    (by simp [evaluate, ValueTyped.get_primitive_variant, ValueTyped.from_string, parseIntChars,
          digitsToNat])
    (by simp [evaluate, ValueTyped.get_primitive_variant, ValueTyped.from_string, parseIntChars,
          digitsToNat])

end Bridge

namespace Rib

/-- Unfolding of one manyGo iteration. -/
theorem manyGo_succ {α : Type} (p : ParserFn α) (fuel : Nat) (input : List Char) :
    manyGo p (fuel + 1) input =
      (match p input with
       | .ok a rest true =>
         (match manyGo p fuel rest with
          | .ok xs rest2 _ => .ok (a :: xs) rest2 true
          | .err _ => .err true)
       | .ok _ _ false => .ok [] input false
       | .err true => .err true
       | .err false => .ok [] input false) := rfl

/-- manyGo stops cleanly at a non-consuming failure. -/
theorem manyGo_stop {α : Type} (p : ParserFn α) (fuel : Nat) (input : List Char)
    (h : p input = .err false) (hf : 1 ≤ fuel) : manyGo p fuel input = .ok [] input false := by
  cases fuel with
  | zero => omega
  | succ fuel => rw [manyGo_succ, h]

/-- Running many of a satisfy over a run of accepted characters followed by
a stopping character consumes exactly the run. -/
theorem manyGo_satisfy (pred : Char → Bool) :
    ∀ (xs ys : List Char) (fuel : Nat), xs.length < fuel →
      (∀ c ∈ xs, pred c = true) →
      (∀ c, ys.head? = some c → pred c = false) →
      manyGo (satisfyP pred) fuel (xs ++ ys) = .ok xs ys (!xs.isEmpty) := by
  intro xs
  induction xs with
  | nil =>
    intro ys fuel hf hall hstop
    cases fuel with
    | zero => omega
    | succ fuel =>
      cases ys with
      | nil => rw [manyGo_succ]; rfl
      | cons c r =>
        have hc := hstop c rfl
        rw [manyGo_succ]
        simp [satisfyP, hc]
  | cons x xs ih =>
    intro ys fuel hf hall hstop
    cases fuel with
    | zero => simp at hf
    | succ fuel =>
      have hx : pred x = true := hall x (List.mem_cons_self x xs)
      have hrec := ih ys fuel (by simp at hf; omega)
        (fun c hc => hall c (List.mem_cons_of_mem _ hc)) hstop
      rw [manyGo_succ]
      simp [satisfyP, hx, hrec]

/-- manyP over a satisfy run. -/
theorem manyP_satisfy (pred : Char → Bool) (xs ys : List Char)
    (hall : ∀ c ∈ xs, pred c = true) (hstop : ∀ c, ys.head? = some c → pred c = false) :
    manyP (satisfyP pred) (xs ++ ys) = .ok xs ys (!xs.isEmpty) := by
  unfold manyP
  exact manyGo_satisfy pred xs ys ((xs ++ ys).length + 1) (by simp; omega) hall hstop

/-- many1P over a nonempty satisfy run. -/
theorem many1P_satisfy (pred : Char → Bool) (xs ys : List Char) (hne : xs ≠ [])
    (hall : ∀ c ∈ xs, pred c = true) (hstop : ∀ c, ys.head? = some c → pred c = false) :
    many1P (satisfyP pred) (xs ++ ys) = .ok xs ys true := by
  cases xs with
  | nil => exact absurd rfl hne
  | cons x xs =>
    have hx : pred x = true := hall x (List.mem_cons_self x xs)
    have hrest := manyP_satisfy pred xs ys (fun c hc => hall c (List.mem_cons_of_mem _ hc)) hstop
    simp [many1P, bindP, mapP, pureP, satisfyP, hx, hrest]

/-- spaces() consumes nothing when the input does not start with
whitespace. -/
theorem spacesP_nop (input : List Char)
    (h : ∀ c, input.head? = some c → c.isWhitespace = false) :
    spacesP input = .ok () input false := by
  have := manyP_satisfy Char.isWhitespace [] input (by intro c hc; cases hc) h
  simp only [List.nil_append] at this
  simp [spacesP, mapP, bindP, pureP, this]

/-- many of a parser that succeeds once consuming and then fails without
consuming yields exactly one result. -/
theorem manyP_one {α : Type} (p : ParserFn α) (input rest : List Char) (a : α)
    (hlen : rest.length < input.length)
    (h1 : p input = .ok a rest true) (h2 : p rest = .err false) :
    manyP p input = .ok [a] rest true := by
  have hstop := manyGo_stop p input.length rest h2 (by omega)
  unfold manyP
  rw [manyGo_succ, h1]
  simp [hstop]

/-- A whitespace character is not an identifier character. -/
theorem ws_not_identChar (c : Char) (hw : c.isWhitespace = true) : identChar c = false := by
  simp only [Char.isWhitespace, Bool.or_eq_true, decide_eq_true_eq] at hw
  rcases hw with ((h | h) | h) | h <;> subst h <;> decide

/-- An identifier character is not whitespace. -/
theorem identChar_not_ws (c : Char) (h : identChar c = true) : c.isWhitespace = false := by
  cases hw : c.isWhitespace with
  | false => rfl
  | true => rw [ws_not_identChar c hw] at h; cases h

/-- The static-character alternation accepts exactly the isStaticChar set. -/
theorem staticCharChoice_eq_satisfy : staticCharChoice = satisfyP isStaticChar := by
  funext input
  cases input with
  | nil => rfl
  | cons d ds =>
    simp only [staticCharChoice, orP, satisfyP, isStaticChar]
    by_cases h1 : d.isAlpha
    · simp [h1]
    · by_cases h2 : d.isWhitespace
      · simp [h1, h2]
      · by_cases h3 : d.isDigit
        · simp [h1, h2, h3]
        · by_cases h4 : d == '_'
          · simp [h1, h2, h3, h4]
          · by_cases h5 : d == '-'
            · simp [h1, h2, h3, h4, h5]
            · by_cases h6 : d == '.'
              · simp [h1, h2, h3, h4, h5, h6]
              · by_cases h7 : d == '/'
                · simp [h1, h2, h3, h4, h5, h6, h7]
                · by_cases h8 : d == ':'
                  · simp [h1, h2, h3, h4, h5, h6, h7, h8]
                  · by_cases h9 : d == '@'
                    · simp [h1, h2, h3, h4, h5, h6, h7, h8, h9]
                    · simp [h1, h2, h3, h4, h5, h6, h7, h8, h9]

/-- Every character collected by many of a satisfy passes its predicate. -/
theorem manyGo_satisfy_sound (pred : Char → Bool) :
    ∀ (fuel : Nat) (input xs rest : List Char) (b : Bool),
      manyGo (satisfyP pred) fuel input = .ok xs rest b → ∀ x ∈ xs, pred x = true := by
  intro fuel
  induction fuel with
  | zero =>
    intro input xs rest b h x hx
    simp only [manyGo] at h
    cases h
    cases hx
  | succ fuel ih =>
    intro input xs rest b h x hx
    rw [manyGo_succ] at h
    cases input with
    | nil => simp [satisfyP] at h; obtain ⟨h1, _⟩ := h; subst h1; cases hx
    | cons c r =>
      by_cases hc : pred c
      · simp only [satisfyP, hc, if_pos] at h
        cases hrec : manyGo (satisfyP pred) fuel r with
        | ok xs2 rest2 b2 =>
          rw [hrec] at h
          cases h
          rcases List.mem_cons.mp hx with rfl | hmem
          · exact hc
          · exact ih r _ _ _ hrec x hmem
        | err b2 => rw [hrec] at h; cases h
      · simp only [satisfyP, hc] at h
        simp at h
        obtain ⟨h1, _⟩ := h
        subst h1
        cases hx

/-- Whatever static_part accepts is a Literal over the static character
set. -/
theorem static_part_sound (input : List Char) (e : Expr) (rest : List Char) (b : Bool)
    (h : static_part input = .ok e rest b) :
    ∃ s : String, e = Expr.literal s ∧ s.data.all isStaticChar = true := by
  unfold static_part at h
  rw [staticCharChoice_eq_satisfy] at h
  simp only [many1P, mapP, bindP, pureP] at h
  cases input with
  | nil => simp [satisfyP] at h
  | cons c r =>
    by_cases hc : isStaticChar c
    · simp only [satisfyP, hc, if_pos] at h
      cases hm : manyP (satisfyP isStaticChar) r with
      | ok xs rest2 b2 =>
        rw [hm] at h
        simp only [PResult.ok.injEq] at h
        obtain ⟨he, _, _⟩ := h
        refine ⟨String.mk (c :: xs), he.symm, ?_⟩
        have hxs := manyGo_satisfy_sound isStaticChar (r.length + 1) r xs rest2 b2 hm
        simp only [String.data]
        rw [List.all_eq_true]
        intro x hx
        rcases List.mem_cons.mp hx with rfl | hmem
        · exact hc
        · exact hxs x hmem
      | err b2 => rw [hm] at h; cases h
    · simp [satisfyP, hc] at h

/-- Whether a node is an Identifier. -/
def isIdentE : Expr → Bool
  | .ident _ _ => true
  | _ => false

/-- A typed AST with two global occurrences of the same name under
conflicting inferred types, Str and Bool. -/
def conflictExpr : Expr :=
  .concatE [.ident (.global "x") .str, .ident (.global "x") .bool] .unknown

/-- A typed AST that is a single global identifier of type Str. -/
def singleGlobalExpr : Expr := .ident (.global "y") .str

/-- Every expression counts at least one node. -/
theorem exprSize_pos (e : Expr) : 1 ≤ exprSize e := by
  cases e with
  | optionE inner t => cases inner <;> simp [exprSize]
  | _ => simp only [exprSize]; omega

/-- Lookup after a HashMap-style insert: the inserted key maps to the new
value, the rest is unchanged. -/
theorem insertType_lookup (acc : List (String × AnalysedType)) (k : String) (a : AnalysedType)
    (n : String) :
    (insertType acc k a).lookup n = if n = k then some a else acc.lookup n := by
  induction acc with
  | nil =>
    by_cases hn : n = k
    · subst hn
      simp [insertType, List.lookup]
    · have hb : (n == k) = false := by simp [hn]
      simp [insertType, List.lookup, hb, hn]
  | cons hd tl ih =>
    obtain ⟨k0, a0⟩ := hd
    by_cases hk : k0 = k
    · subst hk
      by_cases hn : n = k0
      · subst hn
        simp [insertType, List.lookup]
      · have hb : (n == k0) = false := by simp [hn]
        simp [insertType, List.lookup, hb, hn]
    · by_cases hn0 : n = k0
      · subst hn0
        simp [insertType, List.lookup, hk]
      · have hb0 : (n == k0) = false := by simp [hn0]
        simp [insertType, List.lookup, hk, hb0, ih]

/-- globalBindingsList distributes over append. -/
theorem globalBindingsList_append (l1 l2 : List Expr) :
    globalBindingsList (l1 ++ l2) = globalBindingsList l1 ++ globalBindingsList l2 := by
  induction l1 with
  | nil => simp [globalBindingsList]
  | cons e rest ih => simp [globalBindingsList, ih]

/-- Membership of globalBindingsList is membership in a member's
bindings. -/
theorem mem_globalBindingsList (l : List Expr) (x : String × InferredType) :
    x ∈ globalBindingsList l ↔ ∃ e ∈ l, x ∈ globalBindings e := by
  induction l with
  | nil => simp [globalBindingsList]
  | cons e rest ih => simp [globalBindingsList, List.mem_append, ih]

/-- globalBindingsFields equals globalBindingsList over the field values. -/
theorem globalBindingsFields_eq (fs : List (String × Expr)) :
    globalBindingsFields fs = globalBindingsList (fs.map Prod.snd) := by
  induction fs with
  | nil => simp [globalBindingsFields, globalBindingsList]
  | cons f rest ih =>
    obtain ⟨k, e⟩ := f
    simp [globalBindingsFields, globalBindingsList, ih]

/-- The arm-pattern binding walkers match globalBindingsList over the
corresponding expression walkers. -/
theorem globalBindingsPattern_spec (n : Nat) :
    (∀ p : ArmPatternF Expr, patternSize p ≤ n →
      globalBindingsPattern p = globalBindingsList (patternExprs p)) ∧
    (∀ ps : List (ArmPatternF Expr), patternListSize ps ≤ n →
      globalBindingsPatternList ps = globalBindingsList (patternExprsList ps)) ∧
    (∀ arms : List (ArmPatternF Expr × Expr), armsSize arms ≤ n →
      globalBindingsArms arms = globalBindingsList (armsExprs arms)) := by
  induction n with
  | zero =>
    refine ⟨fun p hp => absurd (le_trans (patternSize_pos p) hp) (by omega),
      fun ps hps => ?_, fun arms harms => ?_⟩
    · cases ps with
      | nil => simp [globalBindingsPatternList, patternExprsList, globalBindingsList]
      | cons p ps =>
        exact absurd hps (by simp [patternListSize]; have := patternSize_pos p; omega)
    · cases arms with
      | nil => simp [globalBindingsArms, armsExprs, globalBindingsList]
      | cons arm rest =>
        obtain ⟨p, rhs⟩ := arm
        exact absurd harms (by simp [armsSize]; have := patternSize_pos p; omega)
  | succ n ih =>
    obtain ⟨ihp, ihps, iharms⟩ := ih
    have hPat : ∀ p : ArmPatternF Expr, patternSize p ≤ n + 1 →
        globalBindingsPattern p = globalBindingsList (patternExprs p) := by
      intro p hp
      cases p with
      | wildCard => simp [globalBindingsPattern, patternExprs, globalBindingsList]
      | asP name q =>
        have h1 : patternSize q ≤ n := by simp [patternSize] at hp; omega
        simp only [globalBindingsPattern, patternExprs]
        exact ihp q h1
      | constructorP name ps =>
        have h1 : patternListSize ps ≤ n := by simp [patternSize] at hp; omega
        simp only [globalBindingsPattern, patternExprs]
        exact ihps ps h1
      | tupleConstructorP ps =>
        have h1 : patternListSize ps ≤ n := by simp [patternSize] at hp; omega
        simp only [globalBindingsPattern, patternExprs]
        exact ihps ps h1
      | literalP e => simp [globalBindingsPattern, patternExprs, globalBindingsList]
    refine ⟨hPat, fun ps hps => ?_, fun arms harms => ?_⟩
    · cases ps with
      | nil => simp [globalBindingsPatternList, patternExprsList, globalBindingsList]
      | cons p ps =>
        have hpos := patternSize_pos p
        simp only [patternListSize] at hps
        simp only [globalBindingsPatternList, patternExprsList, globalBindingsList_append]
        rw [hPat p (by omega), ihps ps (by omega)]
    · cases arms with
      | nil => simp [globalBindingsArms, armsExprs, globalBindingsList]
      | cons arm rest =>
        obtain ⟨p, rhs⟩ := arm
        have hpos := patternSize_pos p
        simp only [armsSize] at harms
        simp only [globalBindingsArms, armsExprs, globalBindingsList_append, globalBindingsList]
        rw [hPat p (by omega), iharms rest (by omega)]

/-- On a node that is not an identifier, the bindings are those of the
children. -/
theorem globalBindings_children (e : Expr) (h : ∀ vid t, e ≠ .ident vid t) :
    globalBindings e = globalBindingsList (children e) := by
  cases e with
  | ident vid t => exact absurd rfl (h vid t)
  | literalE s t => simp [globalBindings, children, globalBindingsList]
  | numberE x t => simp [globalBindings, children, globalBindingsList]
  | booleanE b t => simp [globalBindings, children, globalBindingsList]
  | concatE es t => simp [globalBindings, children]
  | multipleE es t => simp [globalBindings, children]
  | sequenceE es t => simp [globalBindings, children]
  | recordE fs t => simp [globalBindings, children, globalBindingsFields_eq]
  | tupleE es t => simp [globalBindings, children]
  | optionE inner t =>
    cases inner <;> simp [globalBindings, children, globalBindingsList]
  | resultE isOk e t => simp [globalBindings, children, globalBindingsList]
  | flagsE names t => simp [globalBindings, children, globalBindingsList]
  | selectFieldE e f t => simp [globalBindings, children, globalBindingsList]
  | selectIndexE e i t => simp [globalBindings, children, globalBindingsList]
  | equalToE l r t => simp [globalBindings, children, globalBindingsList]
  | greaterThanE l r t => simp [globalBindings, children, globalBindingsList]
  | greaterThanOrEqualToE l r t => simp [globalBindings, children, globalBindingsList]
  | lessThanE l r t => simp [globalBindings, children, globalBindingsList]
  | lessThanOrEqualToE l r t => simp [globalBindings, children, globalBindingsList]
  | notE e t => simp [globalBindings, children, globalBindingsList]
  | condE p a b t => simp [globalBindings, children, globalBindingsList]
  | patternMatchE s arms t =>
    simp only [globalBindings, children, globalBindingsList]
    rw [(globalBindingsPattern_spec (armsSize arms)).2.2 arms le_rfl]
  | requestE t => simp [globalBindings, children, globalBindingsList]
  | workerResponseE t => simp [globalBindings, children, globalBindingsList]

/-- An identifier is recognised by isIdentE. -/
theorem isIdentE_true {e : Expr} (h : isIdentE e = true) : ∃ vid t, e = .ident vid t := by
  cases e <;> simp [isIdentE] at h ⊢

/-- A non-identifier is rejected by isIdentE. -/
theorem isIdentE_false {e : Expr} (h : isIdentE e = false) : ∀ vid t, e ≠ .ident vid t := by
  cases e <;> simp [isIdentE] at h ⊢

/-- The worklist step on a non-identifier replaces it with its children. -/
theorem fromExprGo_nonident (e : Expr) (rest : List Expr) (acc : List (String × AnalysedType))
    (h : ∀ vid t, e ≠ .ident vid t) :
    fromExprGo (e :: rest) acc = fromExprGo (children e ++ rest) acc := by
  cases e with
  | ident vid t => exact absurd rfl (h vid t)
  | _ => simp [fromExprGo]

/-- What the extractor worklist computes, by strong induction on the queue
node count: a name is a key of the outcome exactly when the accumulator
binds it or a global identifier of that name sits in the queue, and any
looked-up analysed type comes from the accumulator or from converting some
queued global identifier occurrence of that name. -/
theorem fromExprGo_spec :
    ∀ (N : Nat) (queue : List Expr) (acc r : List (String × AnalysedType)),
      exprListSize queue ≤ N → fromExprGo queue acc = .ok r →
      (∀ n, (r.lookup n).isSome = true ↔
        ((acc.lookup n).isSome = true ∨ ∃ e ∈ queue, ∃ t, (n, t) ∈ globalBindings e)) ∧
      (∀ n a, r.lookup n = some a →
        (∃ e ∈ queue, ∃ t, (n, t) ∈ globalBindings e ∧ AnalysedType.tryFrom t = .ok a) ∨
          acc.lookup n = some a) := by
  intro N
  induction N with
  | zero =>
    intro queue acc r hN hok
    cases queue with
    | nil =>
      simp only [fromExprGo] at hok
      cases hok
      exact ⟨fun n => by simp, fun n a h => Or.inr h⟩
    | cons e rest =>
      exfalso
      have := exprSize_pos e
      simp only [exprListSize] at hN
      omega
  | succ N ih =>
    intro queue acc r hN hok
    cases queue with
    | nil =>
      simp only [fromExprGo] at hok
      cases hok
      exact ⟨fun n => by simp, fun n a h => Or.inr h⟩
    | cons e rest =>
      cases hi : isIdentE e with
      | false =>
        have hne := isIdentE_false hi
        rw [fromExprGo_nonident e rest acc hne] at hok
        have hsize : exprListSize (children e ++ rest) ≤ N := by
          have h1 := children_size_lt e
          simp only [exprListSize] at hN
          simp only [exprListSize_append]
          omega
        obtain ⟨ihK, ihV⟩ := ih (children e ++ rest) acc r hsize hok
        have htr : ∀ n t, ((n, t) ∈ globalBindings e) ↔ ∃ c ∈ children e, (n, t) ∈ globalBindings c := by
          intro n t
          rw [globalBindings_children e hne]
          exact mem_globalBindingsList (children e) (n, t)
        constructor
        · intro n
          rw [ihK n]
          constructor
          · rintro (hacc | ⟨e2, he2, t, hmem⟩)
            · exact Or.inl hacc
            · rcases List.mem_append.mp he2 with hch | hr
              · exact Or.inr ⟨e, List.mem_cons_self e rest, t, (htr n t).mpr ⟨e2, hch, hmem⟩⟩
              · exact Or.inr ⟨e2, List.mem_cons_of_mem _ hr, t, hmem⟩
          · rintro (hacc | ⟨e2, he2, t, hmem⟩)
            · exact Or.inl hacc
            · rcases List.mem_cons.mp he2 with rfl | hr
              · obtain ⟨c, hc, hmc⟩ := (htr n t).mp hmem
                exact Or.inr ⟨c, List.mem_append.mpr (Or.inl hc), t, hmc⟩
              · exact Or.inr ⟨e2, List.mem_append.mpr (Or.inr hr), t, hmem⟩
        · intro n a h
          rcases ihV n a h with ⟨e2, he2, t, hmem, htf⟩ | hacc
          · rcases List.mem_append.mp he2 with hch | hr
            · exact Or.inl ⟨e, List.mem_cons_self e rest, t, (htr n t).mpr ⟨e2, hch, hmem⟩, htf⟩
            · exact Or.inl ⟨e2, List.mem_cons_of_mem _ hr, t, hmem, htf⟩
          · exact Or.inr hacc
      | true =>
        obtain ⟨vid, t, rfl⟩ := isIdentE_true hi
        have hsize : exprListSize rest ≤ N := by
          have := exprSize_pos (Expr.ident vid t)
          simp only [exprListSize] at hN
          omega
        cases hg : vid.is_global with
        | false =>
          simp only [fromExprGo, hg, Bool.false_eq_true, if_false] at hok
          obtain ⟨ihK, ihV⟩ := ih rest acc r hsize hok
          have hgb : globalBindings (Expr.ident vid t) = [] := by
            simp [globalBindings, hg]
          constructor
          · intro n
            rw [ihK n]
            constructor
            · rintro (hacc | ⟨e2, he2, t2, hmem⟩)
              · exact Or.inl hacc
              · exact Or.inr ⟨e2, List.mem_cons_of_mem _ he2, t2, hmem⟩
            · rintro (hacc | ⟨e2, he2, t2, hmem⟩)
              · exact Or.inl hacc
              · rcases List.mem_cons.mp he2 with rfl | hr
                · rw [hgb] at hmem; cases hmem
                · exact Or.inr ⟨e2, hr, t2, hmem⟩
          · intro n a h
            rcases ihV n a h with ⟨e2, he2, t2, hmem, htf⟩ | hacc
            · exact Or.inl ⟨e2, List.mem_cons_of_mem _ he2, t2, hmem, htf⟩
            · exact Or.inr hacc
        | true =>
          cases htf : AnalysedType.tryFrom t with
          | error msg =>
            simp only [fromExprGo, hg, if_true, htf] at hok
            exact Except.noConfusion hok
          | ok a0 =>
            simp only [fromExprGo, hg, if_true, htf] at hok
            obtain ⟨ihK, ihV⟩ := ih rest (insertType acc vid.name a0) r hsize hok
            have hgb : globalBindings (Expr.ident vid t) = [(vid.name, t)] := by
              simp [globalBindings, hg]
            constructor
            · intro n
              rw [ihK n, insertType_lookup]
              by_cases hn : n = vid.name
              · subst hn
                simp only [if_pos rfl, Option.isSome_some]
                constructor
                · intro _
                  exact Or.inr ⟨Expr.ident vid t, List.mem_cons_self _ _, t, by rw [hgb]; exact List.mem_cons_self _ _⟩
                · intro _
                  exact Or.inl rfl
              · rw [if_neg hn]
                constructor
                · rintro (hacc | ⟨e2, he2, t2, hmem⟩)
                  · exact Or.inl hacc
                  · exact Or.inr ⟨e2, List.mem_cons_of_mem _ he2, t2, hmem⟩
                · rintro (hacc | ⟨e2, he2, t2, hmem⟩)
                  · exact Or.inl hacc
                  · rcases List.mem_cons.mp he2 with rfl | hr
                    · rw [hgb] at hmem
                      rcases List.mem_singleton.mp hmem with h2
                      exact absurd (congrArg Prod.fst h2) (by simpa using hn)
                    · exact Or.inr ⟨e2, hr, t2, hmem⟩
            · intro n a h
              rcases ihV n a h with ⟨e2, he2, t2, hmem, htf2⟩ | hacc
              · exact Or.inl ⟨e2, List.mem_cons_of_mem _ he2, t2, hmem, htf2⟩
              · rw [insertType_lookup] at hacc
                by_cases hn : n = vid.name
                · subst hn
                  rw [if_pos rfl] at hacc
                  cases hacc
                  exact Or.inl ⟨Expr.ident vid t, List.mem_cons_self _ _, t,
                    by rw [hgb]; exact List.mem_cons_self _ _, htf⟩
                · rw [if_neg hn] at hacc
                  exact Or.inr hacc

/-- C1 (amended: from_expr does not check duplicate global names for
agreement — a later-visited occurrence silently overwrites an earlier one,
and extraction fails only when some global identifier's inferred type has no
analysed form).  On success the keys of the mapping are exactly the global
identifier names of the AST, and every looked-up analysed type is the
conversion of some occurrence's inferred type. -/
theorem claim_C1_input_type_extraction (e : Expr) (info : RibInputTypeInfo)
    (hok : RibInputTypeInfo.from_expr e = .ok info) :
    (∀ n, (info.types.lookup n).isSome = true ↔ n ∈ globalNames e) ∧
    (∀ n a, info.types.lookup n = some a →
      ∃ t, (n, t) ∈ globalBindings e ∧ AnalysedType.tryFrom t = .ok a) := by
  unfold RibInputTypeInfo.from_expr at hok
  cases hgo : fromExprGo [e] [] with
  | error msg => rw [hgo] at hok; cases hok
  | ok types =>
    rw [hgo] at hok
    cases hok
    obtain ⟨hK, hV⟩ := fromExprGo_spec (exprListSize [e]) [e] [] types le_rfl hgo
    constructor
    · intro n
      rw [hK n]
      simp only [List.lookup_nil, Option.isSome_none, Bool.false_eq_true, false_or,
        List.mem_singleton, globalNames, List.mem_map]
      constructor
      · rintro ⟨e2, rfl, t, hmem⟩
        exact ⟨(n, t), hmem, rfl⟩
      · rintro ⟨⟨n2, t⟩, hmem, rfl⟩
        exact ⟨e, rfl, t, hmem⟩
    · intro n a h
      rcases hV n a h with ⟨e2, he2, t, hmem, htf⟩ | hacc
      · rcases List.mem_singleton.mp he2 with rfl
        exact ⟨t, hmem, htf⟩
      · cases hacc

/-- C1 witness: a single global identifier y of type Str extracts to the
mapping y to Str, whose key y is exactly the global name. -/
theorem claim_C1_witness :
    ((RibInputTypeInfo.mk [("y", AnalysedType.str)]).types.lookup "y").isSome = true ↔
      "y" ∈ globalNames singleGlobalExpr := by
  exact (claim_C1_input_type_extraction singleGlobalExpr ⟨[("y", AnalysedType.str)]⟩
    (by simp [RibInputTypeInfo.from_expr, fromExprGo, AnalysedType.tryFrom,
      VariableId.is_global, VariableId.name, insertType, singleGlobalExpr])).1 "y"

/-- C1 counterexample: two global identifiers named x with the conflicting
inferred types Str and Bool — both convertible, and distinct — do not make
extraction fail; the mapping comes back Ok with the later-visited type. -/
theorem claim_C1_counterexample :
    RibInputTypeInfo.from_expr conflictExpr = .ok ⟨[("x", AnalysedType.bool)]⟩ ∧
    AnalysedType.tryFrom InferredType.str = .ok AnalysedType.str ∧
    AnalysedType.tryFrom InferredType.bool = .ok AnalysedType.bool ∧
    AnalysedType.str ≠ AnalysedType.bool := by
  refine ⟨?_, rfl, rfl, by intro h; cases h⟩
  simp [RibInputTypeInfo.from_expr, fromExprGo, conflictExpr, children, insertType,
    AnalysedType.tryFrom, VariableId.is_global, VariableId.name]

/-- C7: a double-quoted literal with exactly one interpolation part and no
static parts parses to that part itself (here: any identifier interpolation
collapses to the Identifier, not a one-element Concat); the empty literal
parses to Literal(""); a literal with several parts parses to the Concat of
the parts in order. -/
theorem claim_C7_literal_collapse :
    (∀ name : String, name.data ≠ [] → name.data.all identChar = true →
      literalParser (quoteChar :: '$' :: lbraceChar :: (name.data ++ [rbraceChar, quoteChar])) =
        .ok (Expr.identifier name) [] true) ∧
    literalParser [quoteChar, quoteChar] = .ok (Expr.literal "") [] true ∧
    literalParser [quoteChar, 'f', 'o', 'o', '-', '$', lbraceChar, 'b', 'a', 'r', rbraceChar, '-', 'b', 'a', 'z', quoteChar] =
      .ok (Expr.concat [Expr.literal "foo-", Expr.identifier "bar", Expr.literal "-baz"]) [] true := by
  refine ⟨?_, by rfl, by rfl⟩
  intro name h1 h2
  have hall : ∀ c ∈ name.data, identChar c = true := List.all_eq_true.mp h2
  have hstopBrace : ∀ c : Char, ([rbraceChar, quoteChar] : List Char).head? = some c → identChar c = false := by
    intro c hc
    simp only [List.head?] at hc
    cases hc
    decide
  have hsp_name : spacesP (name.data ++ [rbraceChar, quoteChar]) =
      .ok () (name.data ++ [rbraceChar, quoteChar]) false := by
    apply spacesP_nop
    intro c hc
    cases hd : name.data with
    | nil => exact absurd hd h1
    | cons d ds =>
      rw [hd] at hc
      simp only [List.cons_append, List.head?, Option.some.injEq] at hc
      subst hc
      apply identChar_not_ws
      apply hall
      rw [hd]
      exact List.mem_cons_self _ _
  have hident : many1P (satisfyP identChar) (name.data ++ [rbraceChar, quoteChar]) =
      .ok name.data [rbraceChar, quoteChar] true :=
    many1P_satisfy identChar name.data [rbraceChar, quoteChar] h1 hall hstopBrace
  have hmk : String.mk name.data = name := rfl
  have hrib : ribExprModel (name.data ++ [rbraceChar, quoteChar]) =
      .ok (Expr.identifier name) [rbraceChar, quoteChar] true := by
    simp [ribExprModel, mapP, bindP, pureP, hident, hmk]
  have hsp_rbq : spacesP [rbraceChar, quoteChar] = .ok () [rbraceChar, quoteChar] false := rfl
  have hpP : seqLeft ribExprModel spacesP (name.data ++ [rbraceChar, quoteChar]) =
      .ok (Expr.identifier name) [rbraceChar, quoteChar] true := by
    simp [seqLeft, bindP, mapP, pureP, hrib, hsp_rbq]
  have hmanySep : manyP (bindP (seqLeft (charP ';') spacesP) (fun _ => seqLeft ribExprModel spacesP))
      [rbraceChar, quoteChar] = .ok [] [rbraceChar, quoteChar] false := rfl
  have hblock : block ribExprModel (name.data ++ [rbraceChar, quoteChar]) =
      .ok (Expr.identifier name) [rbraceChar, quoteChar] true := by
    simp [block, seqRight, bindP, mapP, pureP, hsp_name, sepByP, sepBy1, orP, hpP, hmanySep]
  have hinterp : interpolation ribExprModel ('$' :: lbraceChar :: (name.data ++ [rbraceChar, quoteChar])) =
      .ok (Expr.identifier name) [quoteChar] true := by
    simp [interpolation, betweenP, seqLeft, seqRight, bindP, mapP, pureP, charP, satisfyP,
      hsp_name, hblock]
  have hchoice1 : orP (interpolation ribExprModel) static_part
      ('$' :: lbraceChar :: (name.data ++ [rbraceChar, quoteChar])) =
      .ok (Expr.identifier name) [quoteChar] true := by
    simp [orP, hinterp]
  have hq_err : orP (interpolation ribExprModel) static_part [quoteChar] = .err false := rfl
  have hmany : manyP (orP (interpolation ribExprModel) static_part)
      ('$' :: lbraceChar :: (name.data ++ [rbraceChar, quoteChar])) =
      .ok [Expr.identifier name] [quoteChar] true := by
    apply manyP_one _ _ _ _ _ hchoice1 hq_err
    simp
  have hspq : spacesP (quoteChar :: '$' :: lbraceChar :: (name.data ++ [rbraceChar, quoteChar])) =
      .ok () (quoteChar :: '$' :: lbraceChar :: (name.data ++ [rbraceChar, quoteChar])) false := by
    apply spacesP_nop
    intro c hc
    simp only [List.head?] at hc
    cases hc
    decide
  simp [literalParser, literal_, seqRight, seqLeft, betweenP, bindP, mapP, pureP, hspq,
    charP, satisfyP, hmany]

/-- C7 witness: the direct interpolation of the identifier foo parses to
Identifier(foo). -/
theorem claim_C7_witness :
    literalParser (quoteChar :: '$' :: lbraceChar :: ("foo".data ++ [rbraceChar, quoteChar])) =
      .ok (Expr.identifier "foo") [] true := by
  exact claim_C7_literal_collapse.1 "foo" (by decide) (by decide)

/-- C9: a static (non-interpolated) segment accepted by the literal parser
consists only of letters, whitespace, digits and the characters
_ - . / : @ — and a quoted literal whose static text holds another
character, here ! or a comma, is rejected. -/
theorem claim_C9_static_character_set :
    (∀ (input : List Char) (e : Expr) (rest : List Char) (b : Bool),
      static_part input = .ok e rest b →
      ∃ s : String, e = Expr.literal s ∧ s.data.all isStaticChar = true) ∧
    isStaticChar '!' = false ∧
    isStaticChar ',' = false ∧
    literalParser [quoteChar, 'a', '!', 'b', quoteChar] = .err true ∧
    literalParser [quoteChar, 'a', ',', 'b', quoteChar] = .err true := by
  exact ⟨static_part_sound, by decide, by decide, by rfl, by rfl⟩

/-- C9 witness: the static segment a/b parses and its characters are in the
static set. -/
theorem claim_C9_witness :
    ∃ s : String, Expr.literal "a/b" = Expr.literal s ∧ s.data.all isStaticChar = true := by
  exact claim_C9_static_character_set.1 ['a', '/', 'b'] (Expr.literal "a/b") [] true rfl

end Rib

namespace Bridge

/-- A member of a noGlobals list has no globals. -/
theorem noGlobalsList_mem {es : List Expr} (h : noGlobalsList es = true) {e : Expr}
    (he : e ∈ es) : noGlobals e = true := by
  induction es with
  | nil => cases he
  | cons x rest ih =>
    simp only [noGlobalsList, Bool.and_eq_true] at h
    rcases List.mem_cons.mp he with rfl | hmem
    · exact h.1
    · exact ih h.2 hmem

/-- A field of a noGlobals record has no globals. -/
theorem noGlobalsFields_mem {fs : List (String × Expr)} (h : noGlobalsFields fs = true)
    {k : String} {e : Expr} (he : (k, e) ∈ fs) : noGlobals e = true := by
  induction fs with
  | nil => cases he
  | cons f rest ih =>
    obtain ⟨k0, e0⟩ := f
    simp only [noGlobalsFields, Bool.and_eq_true] at h
    rcases List.mem_cons.mp he with heq | hmem
    · cases heq
      exact h.1
    · exact ih h.2 hmem

/-- evalList only looks at the context through its members' evaluations. -/
theorem evalList_congr {rv1 rv2 : ResolvedVariables} {es : List Expr}
    (h : ∀ e ∈ es, evaluate e rv1 = evaluate e rv2) : evalList es rv1 = evalList es rv2 := by
  induction es with
  | nil => simp [evalList]
  | cons e rest ih =>
    have h1 := h e (List.mem_cons_self e rest)
    have h2 := ih (fun x hx => h x (List.mem_cons_of_mem _ hx))
    simp only [evalList, h1, h2]

/-- evalFields only looks at the context through its members' evaluations. -/
theorem evalFields_congr {rv1 rv2 : ResolvedVariables} :
    ∀ fs : List (String × Expr), (∀ k e, (k, e) ∈ fs → evaluate e rv1 = evaluate e rv2) →
    ∀ acc, evalFields fs rv1 acc = evalFields fs rv2 acc := by
  intro fs
  induction fs with
  | nil => intro h acc; simp [evalFields]
  | cons f rest ih =>
    intro h acc
    obtain ⟨k, e⟩ := f
    have h1 := h k e (List.mem_cons_self _ _)
    have h2 := ih (fun k2 e2 hke => h k2 e2 (List.mem_cons_of_mem _ hke))
    simp only [evalFields, h1]
    cases evaluate e rv2 with
    | error err => simp
    | ok v => simpa using h2 (mapInsert acc k (ValueTyped.convert_to_json v))

/-- evalConcat only looks at the context through its members' evaluations. -/
theorem evalConcat_congr {rv1 rv2 : ResolvedVariables} :
    ∀ es : List Expr, (∀ e ∈ es, evaluate e rv1 = evaluate e rv2) →
    ∀ acc, evalConcat es rv1 acc = evalConcat es rv2 acc := by
  intro es
  induction es with
  | nil => intro h acc; simp [evalConcat]
  | cons e rest ih =>
    intro h acc
    have h1 := h e (List.mem_cons_self _ _)
    have h2 := ih (fun x hx => h x (List.mem_cons_of_mem _ hx))
    simp only [evalConcat, h1]
    cases evaluate e rv2 with
    | error err => simp
    | ok v =>
      cases hv : ValueTyped.get_primitive_string v with
      | none => simp [hv]
      | some s =>
        simp only [hv]
        simpa using h2 (acc ++ s)

/-- Context independence of evaluation for expressions without globals,
by strong induction on the node count. -/
theorem noGlobals_eval_aux :
    ∀ (n : Nat) (e : Expr), sizeOf e ≤ n → ∀ rv1 rv2 : ResolvedVariables,
      noGlobals e = true → evaluate e rv1 = evaluate e rv2 := by
  intro n
  induction n with
  | zero =>
    intro e he
    exfalso
    cases e <;> simp_arith at he
  | succ n ih =>
    intro e he rv1 rv2 hng
    cases e with
    | request => simp [noGlobals] at hng
    | workerResponse => simp [noGlobals] at hng
    | pathVar name => simp [noGlobals] at hng
    | literal s => simp [evaluate]
    | selectIndex e i =>
      simp only [noGlobals] at hng
      simp only [Expr.selectIndex.sizeOf_spec] at he
      have hrec := ih e (by omega) rv1 rv2 hng
      simp only [evaluate, hrec]
    | selectField e f =>
      simp only [noGlobals] at hng
      simp only [Expr.selectField.sizeOf_spec] at he
      have hrec := ih e (by omega) rv1 rv2 hng
      simp only [evaluate, hrec]
    | equalTo l r =>
      simp only [noGlobals, Bool.and_eq_true] at hng
      simp only [Expr.equalTo.sizeOf_spec] at he
      have hl := ih l (by omega) rv1 rv2 hng.1
      have hr := ih r (by omega) rv1 rv2 hng.2
      simp only [evaluate, hl, hr]
    | greaterThan l r =>
      simp only [noGlobals, Bool.and_eq_true] at hng
      simp only [Expr.greaterThan.sizeOf_spec] at he
      have hl := ih l (by omega) rv1 rv2 hng.1
      have hr := ih r (by omega) rv1 rv2 hng.2
      simp only [evaluate, hl, hr]
    | greaterThanOrEqualTo l r =>
      simp only [noGlobals, Bool.and_eq_true] at hng
      simp only [Expr.greaterThanOrEqualTo.sizeOf_spec] at he
      have hl := ih l (by omega) rv1 rv2 hng.1
      have hr := ih r (by omega) rv1 rv2 hng.2
      simp only [evaluate, hl, hr]
    | lessThan l r =>
      simp only [noGlobals, Bool.and_eq_true] at hng
      simp only [Expr.lessThan.sizeOf_spec] at he
      have hl := ih l (by omega) rv1 rv2 hng.1
      have hr := ih r (by omega) rv1 rv2 hng.2
      simp only [evaluate, hl, hr]
    | lessThanOrEqualTo l r =>
      simp only [noGlobals, Bool.and_eq_true] at hng
      simp only [Expr.lessThanOrEqualTo.sizeOf_spec] at he
      have hl := ih l (by omega) rv1 rv2 hng.1
      have hr := ih r (by omega) rv1 rv2 hng.2
      simp only [evaluate, hl, hr]
    | not e =>
      simp only [noGlobals] at hng
      simp only [Expr.not.sizeOf_spec] at he
      have hrec := ih e (by omega) rv1 rv2 hng
      simp only [evaluate, hrec]
    | cond p a b =>
      simp only [noGlobals, Bool.and_eq_true] at hng
      simp only [Expr.cond.sizeOf_spec] at he
      have hp := ih p (by omega) rv1 rv2 hng.1
      have ha := ih a (by omega) rv1 rv2 hng.2.1
      have hb := ih b (by omega) rv1 rv2 hng.2.2
      simp only [evaluate, hp, ha, hb]
    | sequence es =>
      simp only [noGlobals] at hng
      simp only [Expr.sequence.sizeOf_spec] at he
      have hl : evalList es rv1 = evalList es rv2 :=
        evalList_congr (fun e' he' =>
          ih e' (by have := List.sizeOf_lt_of_mem he'; omega) rv1 rv2 (noGlobalsList_mem hng he'))
      simp only [evaluate, hl]
    | record fs =>
      simp only [noGlobals] at hng
      simp only [Expr.record.sizeOf_spec] at he
      have hl : evalFields fs rv1 [] = evalFields fs rv2 [] :=
        evalFields_congr fs
          (fun k e' hke =>
            ih e' (by have := List.sizeOf_lt_of_mem hke; simp_arith at this; omega) rv1 rv2
              (noGlobalsFields_mem hng hke)) []
      simp only [evaluate, hl]
    | concat es =>
      simp only [noGlobals] at hng
      simp only [Expr.concat.sizeOf_spec] at he
      have hl : evalConcat es rv1 "" = evalConcat es rv2 "" :=
        evalConcat_congr es
          (fun e' he' =>
            ih e' (by have := List.sizeOf_lt_of_mem he'; omega) rv1 rv2
              (noGlobalsList_mem hng he')) ""
      simp only [evaluate, hl]

/-- C8: an expression with no global inputs (no Request, WorkerResponse or
PathVar node) evaluates identically — result or error — under any two
contexts. -/
theorem claim_C8_no_globals_context_independent (e : Expr) (rv1 rv2 : ResolvedVariables)
    (h : noGlobals e = true) : evaluate e rv1 = evaluate e rv2 :=
  noGlobals_eval_aux (sizeOf e) e le_rfl rv1 rv2 h

/-- C8 witness: a global-free comparison evaluates the same under the empty
context and a populated one. -/
theorem claim_C8_witness :
    evaluate (Expr.equalTo (Expr.literal "1") (Expr.literal "2")) emptyCtx =
      evaluate (Expr.equalTo (Expr.literal "1") (Expr.literal "2")) strOneCtx := by
  exact claim_C8_no_globals_context_independent
    (Expr.equalTo (Expr.literal "1") (Expr.literal "2")) emptyCtx strOneCtx (by rfl)

end Bridge

end Golem
